import Mathlib

/-!
Verification of the v1alpha1 task-validation logic
(`src/pkg/apis/pipeline/v1alpha1/task_validation.go`).

The Go validators return `*apis.FieldError` (nil meaning success); here every
validator returns `Option FieldError`.  Go map-backed string sets become
`List String` with `List.contains` membership.  Components of the repository
that the validator calls but whose sources are not available (the
`substitution` reference scanner, the v1alpha2 validators, step-template
merging, workspace mount-path defaulting) are modelled from the specification
and marked as such in their doc comments.
-/

/-- Model of knative `apis.FieldError`: a structured validation error with a
message, one or more field paths and an optional details hint. -/
structure FieldError where
  Message : String
  Paths : List String
  Details : String := ""
deriving DecidableEq, Repr

/-- Model of knative `apis.ErrMissingField`. -/
def ErrMissingField (f : String) : FieldError :=
  { Message := "missing field(s)", Paths := [f] }

/-- Model of knative `apis.ErrMultipleOneOf`. -/
def ErrMultipleOneOf (ps : List String) : FieldError :=
  { Message := "expected exactly one, got both", Paths := ps }

/-- Model of knative `apis.ErrInvalidValue`. -/
def ErrInvalidValue (v p : String) : FieldError :=
  { Message := "invalid value: " ++ v, Paths := [p] }

/-- Model of knative `FieldError.ViaField`: prefixes every path with the given
field (the empty current-field path becomes just the field). -/
def FieldError.ViaField (e : FieldError) (f : String) : FieldError :=
  { e with Paths := e.Paths.map (fun p => if p = "" then f else f ++ "." ++ p) }

/-- Lift `ViaField` over an optional error, as Go's nil-safe method call. -/
def optViaField (o : Option FieldError) (f : String) : Option FieldError :=
  o.map (fun e => e.ViaField f)

/-- Sequential composition of two checks: the first error wins.  This renders
Go's `if err := ...; err != nil { return err }` chains. -/
def seqE : Option FieldError → Option FieldError → Option FieldError
  | some e, _ => some e
  | none, r => r

/-- First error of a list of check results (early-returning loop body). -/
def firstErr : List (Option FieldError) → Option FieldError
  | [] => none
  | none :: rest => firstErr rest
  | some e :: _ => some e

/-- Indexed map with an explicit starting index, rendering Go's
`for i, x := range xs` loops. -/
def idxMap (f : Nat → α → β) : Nat → List α → List β
  | _, [] => []
  | i, a :: rest => f i a :: idxMap f (i + 1) rest

/-- Model of Go `strings.HasPrefix` on character lists (first argument is the
prefix to test for). -/
def hasPrefixChars : List Char → List Char → Bool
  | [], _ => true
  | _ :: _, [] => false
  | p :: ps, c :: cs => p == c && hasPrefixChars ps cs

/-- Model of Go `strings.HasPrefix s pre`. -/
def strHasPrefix (s pre : String) : Bool := hasPrefixChars pre.data s.data

/-- Model of Go `strings.ToLower` (per-character lowering). -/
def strToLower (s : String) : String := String.mk (s.data.map Char.toLower)

/-- Split a character list on slashes, as Go `strings.Split(p, "/")`. -/
def splitSlashAux : List Char → List Char → List (List Char)
  | acc, [] => [acc.reverse]
  | acc, '/' :: cs => acc.reverse :: splitSlashAux [] cs
  | acc, c :: cs => splitSlashAux (c :: acc) cs

/-- The stack-based component resolution of Go `path/filepath.Clean` (Unix):
drop empty and dot components, let a dot-dot component cancel a preceding
component, keep leading dot-dots only for relative paths. -/
def cleanLoop (rooted : Bool) : List (List Char) → List (List Char) → List (List Char)
  | acc, [] => acc.reverse
  | acc, e :: es =>
    if e = [] ∨ e = ['.'] then cleanLoop rooted acc es
    else if e = ['.', '.'] then
      match acc with
      | [] => cleanLoop rooted (if rooted then [] else [['.', '.']]) es
      | a :: t =>
        if a = ['.', '.'] then cleanLoop rooted (e :: a :: t) es
        else cleanLoop rooted t es
    else cleanLoop rooted (e :: acc) es

/-- Reassemble path components with slashes. -/
def joinSlash : List (List Char) → List Char
  | [] => []
  | [c] => c
  | c :: rest => c ++ '/' :: joinSlash rest

/-- Model of Go `path/filepath.Clean` for Unix paths: the shortest lexically
equivalent path. -/
def filepathClean (p : String) : String :=
  if p = "" then "." else
  let rooted := hasPrefixChars ['/'] p.data
  let comps := cleanLoop rooted [] (splitSlashAux [] p.data)
  if rooted then String.mk ('/' :: joinSlash comps)
  else if comps = [] then "." else String.mk (joinSlash comps)

/-- One lowercase-alphanumeric character. -/
def isLowerAlnum (c : Char) : Bool := c.isLower || c.isDigit

/-- Model of the external k8s `validation.IsDNS1123Label` check (here as a
Bool, true meaning valid): at most 63 characters, lowercase alphanumerics and
dashes only, starting and ending with an alphanumeric. -/
def isDNS1123Label (s : String) : Bool :=
  match s.data with
  | [] => false
  | c :: cs =>
    (c :: cs).length ≤ 63 && isLowerAlnum c &&
      (c :: cs).all (fun d => isLowerAlnum d || d == '-') &&
      isLowerAlnum ((c :: cs).getLastD 'x')

/-! ## Data model

Mirrors the Go types used by the validator (`Step` embeds the container
fields plus `Script`; only fields the validator reads are carried). -/

/-- An environment entry of a step (corev1.EnvVar). -/
structure EnvVar where
  Name : String
  Value : String
deriving DecidableEq, Repr

/-- A volume mount of a step (corev1.VolumeMount). -/
structure VolumeMount where
  Name : String
  MountPath : String
  SubPath : String := ""
deriving DecidableEq, Repr

/-- A declared volume (corev1.Volume; only the name is validated). -/
structure Volume where
  Name : String
deriving DecidableEq, Repr

/-- The container fields shared by steps and the step template
(corev1.Container). -/
structure Container where
  Name : String := ""
  Image : String := ""
  Command : List String := []
  Args : List String := []
  WorkingDir : String := ""
  Env : List EnvVar := []
  VolumeMounts : List VolumeMount := []
deriving DecidableEq, Repr

/-- One execution step: the container fields plus the mutually exclusive
`Script`. -/
structure Step where
  Name : String := ""
  Image : String := ""
  Command : List String := []
  Args : List String := []
  Script : String := ""
  WorkingDir : String := ""
  Env : List EnvVar := []
  VolumeMounts : List VolumeMount := []
deriving DecidableEq, Repr

/-- Parameter types are strings in the source; only two are recognized. -/
abbrev ParamType := String

/-- The recognized scalar parameter type. -/
def ParamTypeString : ParamType := "string"

/-- The recognized array parameter type. -/
def ParamTypeArray : ParamType := "array"

/-- The fixed enumeration of recognized parameter types. -/
def AllParamTypes : List ParamType := [ParamTypeString, ParamTypeArray]

/-- A parameter value tagged with its own type (ArrayOrString; the Go field
`Type` is rendered `type`, a keyword in Lean). -/
structure ArrayOrString where
  type : ParamType
  StringVal : String := ""
  ArrayVal : List String := []
deriving DecidableEq, Repr

/-- A declared parameter: name, declared type, optional default value. -/
structure ParamSpec where
  Name : String
  type : ParamType := ParamTypeString
  Default : Option ArrayOrString := none
deriving DecidableEq, Repr

/-- A legacy resource declaration: name and resource-type string (the Go
field `Type` is rendered `type`). -/
structure TaskResource where
  Name : String
  type : String
deriving DecidableEq, Repr

/-- Modelled from the spec: the fixed allowed resource-type enumeration
injected as a constant (the types file is not under src/). -/
def AllResourceTypes : List String :=
  ["git", "storage", "image", "cluster", "pullRequest", "cloudEvent"]

/-- The deprecated legacy inputs: parameters and resources. -/
structure Inputs where
  Params : List ParamSpec := []
  Resources : List TaskResource := []
deriving DecidableEq, Repr

/-- The deprecated legacy outputs: resources. -/
structure Outputs where
  Resources : List TaskResource := []
deriving DecidableEq, Repr

/-- New-style resource declarations (v1alpha2.TaskResources). -/
structure TaskResources where
  Inputs : List TaskResource := []
  Outputs : List TaskResource := []
deriving DecidableEq, Repr

/-- A workspace declaration: name and optional mount path. -/
structure WorkspaceDeclaration where
  Name : String
  MountPath : String := ""
deriving DecidableEq, Repr

/-- Modelled from the spec: `WorkspaceDeclaration.GetMountPath` resolves the
mount path, defaulting deterministically (to a workspace directory named
after the workspace) when unset; the method's source file is not under src/. -/
def WorkspaceDeclaration.GetMountPath (w : WorkspaceDeclaration) : String :=
  if w.MountPath ≠ "" then w.MountPath else "/workspace/" ++ w.Name

/-- The root task specification document. -/
structure TaskSpec where
  Steps : List Step := []
  Volumes : List Volume := []
  StepTemplate : Option Container := none
  Workspaces : List WorkspaceDeclaration := []
  Params : List ParamSpec := []
  Resources : Option TaskResources := none
  Inputs : Option Inputs := none
  Outputs : Option Outputs := none
deriving DecidableEq, Repr

/-- The entirely empty specification (`&TaskSpec{}` in Go); the semantic
deep-equality test against it is modelled as plain equality. -/
def emptyTaskSpec : TaskSpec := {}

/-! ## Reference scanner

Modelled from the spec (§4.2): the `substitution` package is not under src/.
The scanner locates every well-formed placeholder `$(<scope>.<name>)` for one
of the given scope alternatives, possibly embedded in arbitrary surrounding
text, and classifies each match as whole-field (the match spans the entire
field value) or partial.  Malformed placeholder syntax is treated as plain
text. -/

/-- A character that may appear in a referenced variable name. -/
def nameChar (c : Char) : Bool := c.isAlpha || c.isDigit || c == '_' || c == '-'

/-- Take the maximal leading run of name characters. -/
def takeNameRun : List Char → List Char × List Char
  | [] => ([], [])
  | c :: cs =>
    if nameChar c then
      let r := takeNameRun cs
      (c :: r.1, r.2)
    else ([], c :: cs)

/-- Strip an expected prefix from a character list, or fail. -/
def stripPrefixChars : List Char → List Char → Option (List Char)
  | [], cs => some cs
  | _ :: _, [] => none
  | p :: ps, c :: cs => if p = c then stripPrefixChars ps cs else none

/-- Try each scope alternative in turn: strip `<scope>.` from the input. -/
def matchScopeDot : List (List Char) → List Char → Option (List Char)
  | [], _ => none
  | sc :: rest, cs =>
    match stripPrefixChars (sc ++ ['.']) cs with
    | some r => some r
    | none => matchScopeDot rest cs

/-- Recognize a nonempty variable name followed by the closing parenthesis. -/
def matchNameParen (cs : List Char) : Option (List Char × List Char) :=
  match takeNameRun cs with
  | ([], _) => none
  | (n, ')' :: rest) => some (n, rest)
  | (_, _) => none

/-- Modelled from the spec: recognize a placeholder `$(<scope>.<name>)` at the
head of the input, returning the matched name and the remaining input. -/
def matchPlaceholder (scopes : List (List Char)) : List Char → Option (List Char × List Char)
  | '$' :: '(' :: cs =>
    match matchScopeDot scopes cs with
    | some afterScope => matchNameParen afterScope
    | none => none
  | _ => none

/-- Fuel-indexed scan: at every position try to recognize a placeholder; on a
match record the name together with its whole-field classification (the match
started at the very beginning and consumed the whole input) and continue after
the match, otherwise advance one character.  The fuel only makes the
structural recursion evident; `scanRefs` supplies enough of it. -/
def scanAux (scopes : List (List Char)) : Nat → Bool → List Char → List (List Char × Bool)
  | 0, _, _ => []
  | _ + 1, _, [] => []
  | fuel + 1, atStart, c :: cs =>
    match matchPlaceholder scopes (c :: cs) with
    | some (n, rest) => (n, atStart && rest.isEmpty) :: scanAux scopes fuel false rest
    | none => scanAux scopes fuel false cs

/-- All placeholder matches of a field value, with whole-field classification. -/
def scanRefs (scopes : List (List Char)) (value : List Char) : List (List Char × Bool) :=
  scanAux scopes value.length true value

/-- Modelled from the spec: the structured match records of the reference
scanner for a string-valued field - every matched variable name plus whether
the match spans the entire field value. -/
def extractRefs (scopes : List String) (value : String) : List (String × Bool) :=
  (scanRefs (scopes.map String.data) value.data).map (fun r => (String.mk r.1, r.2))

/-! ## Substitution validators

Modelled from the spec (§4.2, §4.3): the `substitution` package is not under
src/.  Each validator scans one field value against the scope alternation and
applies one rule; the error names the offending field path. -/

/-- The unresolved-variable-reference error: its path names the offending
field. -/
def unresolvedRefError (name value locationName path : String) : FieldError :=
  { Message := "non-existent variable in " ++ value ++ " for " ++ locationName ++ " " ++ name,
    Paths := [path ++ "." ++ name] }

/-- The prohibited-array-use error: an array variable was referenced in a
field where no array reference is allowed. -/
def prohibitedRefError (name value locationName path : String) : FieldError :=
  { Message := "variable type invalid in " ++ value ++ " for " ++ locationName ++ " " ++ name,
    Paths := [path ++ "." ++ name] }

/-- The array-splice (isolation) error: an array variable was referenced as
other than the entire token. -/
def notIsolatedRefError (name value locationName path : String) : FieldError :=
  { Message := "variable is not properly isolated in " ++ value ++ " for " ++
      locationName ++ " " ++ name,
    Paths := [path ++ "." ++ name] }

/-- Modelled from the spec: `substitution.ValidateVariable` (findUndeclared)
fails when some matched name is not present in the namespace, naming the
offending field path. -/
def Substitution.ValidateVariable (name value : String) (scopes : List String)
    (locationName path : String) (vars : List String) : Option FieldError :=
  match (extractRefs scopes value).find? (fun r => !(vars.contains r.1)) with
  | some _ => some (unresolvedRefError name value locationName path)
  | none => none

/-- Modelled from the spec: `substitution.ValidateVariableProhibited`
(findProhibitedArrayUse) fails when any matched name lies in the given
(array-name) subset - such a variable may not be referenced at all in this
field. -/
def Substitution.ValidateVariableProhibited (name value : String) (scopes : List String)
    (locationName path : String) (vars : List String) : Option FieldError :=
  match (extractRefs scopes value).find? (fun r => vars.contains r.1) with
  | some _ => some (prohibitedRefError name value locationName path)
  | none => none

/-- Modelled from the spec: `substitution.ValidateVariableIsolated`
(findNonIsolatedArrayUse) fails when a matched name in the given (array-name)
subset occurs as other than a whole-field match - an array reference must be
the entire token. -/
def Substitution.ValidateVariableIsolated (name value : String) (scopes : List String)
    (locationName path : String) (vars : List String) : Option FieldError :=
  match (extractRefs scopes value).find? (fun r => vars.contains r.1 && !r.2) with
  | some _ => some (notIsolatedRefError name value locationName path)
  | none => none

/-- The scope alternation `(?:inputs|outputs).<pfx>` of the legacy validators,
rendered as the list of its two alternatives. -/
def taskScopes (pfx : String) : List String := ["inputs." ++ pfx, "outputs." ++ pfx]

/-- `validateTaskVariable` from the source. -/
def validateTaskVariable (name value pfx : String) (vars : List String) : Option FieldError :=
  Substitution.ValidateVariable name value (taskScopes pfx) "step" "taskspec.steps" vars

/-- `validateTaskNoArrayReferenced` from the source. -/
def validateTaskNoArrayReferenced (name value pfx : String) (arrayNames : List String) :
    Option FieldError :=
  Substitution.ValidateVariableProhibited name value (taskScopes pfx) "step" "taskspec.steps"
    arrayNames

/-- `validateTaskArraysIsolated` from the source. -/
def validateTaskArraysIsolated (name value pfx : String) (arrayNames : List String) :
    Option FieldError :=
  Substitution.ValidateVariableIsolated name value (taskScopes pfx) "step" "taskspec.steps"
    arrayNames

/-! ## Per-step field walk

`validateVariables` and `validateArrayUsage` traverse the same step fields in
the same order (name, image, workingDir, command tokens, arg tokens, env
values, volume-mount name/mountPath/subPath); they differ only in which
single-field validator they apply (`validateArrayUsage` applies the isolation
rule to command and arg tokens and the prohibition rule elsewhere).  The walk
is shared here, parameterized by the two single-field checks. -/

/-- The checks of one step, in source order: `checkA` applies to the
scalar-class fields and `checkCmd` to command and arg tokens. -/
def stepWalk (checkA checkCmd : String → String → Option FieldError) (step : Step) :
    List (Option FieldError) :=
  [checkA "name" step.Name, checkA "image" step.Image, checkA "workingDir" step.WorkingDir]
  ++ idxMap (fun i cmd => checkCmd ("command[" ++ toString i ++ "]") cmd) 0 step.Command
  ++ idxMap (fun i arg => checkCmd ("arg[" ++ toString i ++ "]") arg) 0 step.Args
  ++ step.Env.map (fun env => checkA ("env[" ++ env.Name ++ "]") env.Value)
  ++ idxMap (fun i v => firstErr
       [checkA ("volumeMount[" ++ toString i ++ "].Name") v.Name,
        checkA ("volumeMount[" ++ toString i ++ "].MountPath") v.MountPath,
        checkA ("volumeMount[" ++ toString i ++ "].SubPath") v.SubPath]) 0 step.VolumeMounts

/-- The directly named scalar fields of a step. -/
def namedFieldPairs (step : Step) : List (String × String) :=
  [("name", step.Name), ("image", step.Image), ("workingDir", step.WorkingDir)]

/-- The command token pairs of a step. -/
def cmdPairs (step : Step) : List (String × String) :=
  idxMap (fun i cmd => ("command[" ++ toString i ++ "]", cmd)) 0 step.Command

/-- The arg token pairs of a step. -/
def argPairs (step : Step) : List (String × String) :=
  idxMap (fun i arg => ("arg[" ++ toString i ++ "]", arg)) 0 step.Args

/-- The environment-value pairs of a step. -/
def envPairs (step : Step) : List (String × String) :=
  step.Env.map (fun env => ("env[" ++ env.Name ++ "]", env.Value))

/-- The volume-mount field pairs of a step (name, mountPath, subPath per
mount). -/
def vmPairs (step : Step) : List (String × String) :=
  (idxMap (fun i v =>
    [(("volumeMount[" ++ toString i ++ "].Name"), v.Name),
     (("volumeMount[" ++ toString i ++ "].MountPath"), v.MountPath),
     (("volumeMount[" ++ toString i ++ "].SubPath"), v.SubPath)]) 0 step.VolumeMounts).flatten

/-- All scanned fields of a step as (field name, field value) pairs, in the
source's traversal order. -/
def stepFieldPairs (step : Step) : List (String × String) :=
  namedFieldPairs step ++ cmdPairs step ++ argPairs step ++ envPairs step ++ vmPairs step

/-- The scalar-class field pairs of a step (all scanned fields except command
and arg tokens). -/
def scalarFieldPairs (step : Step) : List (String × String) :=
  namedFieldPairs step ++ envPairs step ++ vmPairs step

/-- The command and arg token pairs of a step. -/
def commandArgPairs (step : Step) : List (String × String) :=
  cmdPairs step ++ argPairs step

/-- `validateVariables` from the source: every scanned field of every step
must reference only declared variables. -/
def validateVariables (steps : List Step) (pfx : String) (vars : List String) :
    Option FieldError :=
  firstErr (steps.map (fun step => firstErr (stepWalk
    (fun n v => validateTaskVariable n v pfx vars)
    (fun n v => validateTaskVariable n v pfx vars) step)))

/-- `validateArrayUsage` from the source: array-typed variables must not be
referenced in scalar-class fields and must be isolated in command and arg
tokens. -/
def validateArrayUsage (steps : List Step) (pfx : String) (vars : List String) :
    Option FieldError :=
  firstErr (steps.map (fun step => firstErr (stepWalk
    (fun n v => validateTaskNoArrayReferenced n v pfx vars)
    (fun n v => validateTaskArraysIsolated n v pfx vars) step)))

/-- The merged parameter-name namespace of `validateInputParameterVariables`:
the pure union (here: concatenation, membership-equivalent to the source's
map-backed set) of the new-style names and the legacy `inputs.params` names. -/
def mergedParamNames (inputs : Option Inputs) (params : List ParamSpec) : List String :=
  params.map ParamSpec.Name ++
    (match inputs with
     | some i => i.Params.map ParamSpec.Name
     | none => [])

/-- The merged array-typed parameter names of
`validateInputParameterVariables`. -/
def mergedArrayParamNames (inputs : Option Inputs) (params : List ParamSpec) : List String :=
  (params.filter (fun p => p.type = ParamTypeArray)).map ParamSpec.Name ++
    (match inputs with
     | some i => (i.Params.filter (fun p => p.type = ParamTypeArray)).map ParamSpec.Name
     | none => [])

/-- `validateInputParameterVariables` from the source: the merged namespace is
the pure union of the new-style and legacy parameter names (array names
likewise), then the resolution and the array-usage rules run over it. -/
def validateInputParameterVariables (steps : List Step) (inputs : Option Inputs)
    (params : List ParamSpec) : Option FieldError :=
  seqE (validateVariables steps "params" (mergedParamNames inputs params))
    (validateArrayUsage steps "params" (mergedArrayParamNames inputs params))

/-- `validateResourceVariables` from the source. -/
def validateResourceVariables (steps : List Step) (inputs : Option Inputs)
    (outputs : Option Outputs) (resources : Option TaskResources) : Option FieldError :=
  let resourceNames :=
    (match resources with
     | some r => r.Inputs.map TaskResource.Name ++ r.Outputs.map TaskResource.Name
     | none => []) ++
    (match inputs with
     | some i => i.Resources.map TaskResource.Name
     | none => []) ++
    (match outputs with
     | some o => o.Resources.map TaskResource.Name
     | none => [])
  validateVariables steps "resources" resourceNames

/-! ## Structural validators (from the source) -/

/-- The script/command mutual-exclusion error of `validateSteps`. -/
def scriptCommandError (idx : Nat) : FieldError :=
  { Message := "step " ++ toString idx ++ " script cannot be used with command",
    Paths := ["script"] }

/-- The per-mount checks of `validateSteps`: the reserved-path restriction is
a raw string-prefix test on the uncleaned mount path, then the reserved-name
restriction on the mount name. -/
def stepVolumeMountErr (idx : Nat) (vm : VolumeMount) : Option FieldError :=
  if strHasPrefix vm.MountPath "/tekton/" && !strHasPrefix vm.MountPath "/tekton/home" then
    some { Message := "step " ++ toString idx ++ " volumeMount cannot be mounted under " ++
             "/tekton/ (volumeMount " ++ vm.Name ++ " mounted at " ++ vm.MountPath ++ ")",
           Paths := ["volumeMounts.mountPath"] }
  else if strHasPrefix vm.Name "tekton-internal-" then
    some { Message := "step " ++ toString idx ++ " volumeMount name " ++ vm.Name ++
             " cannot start with tekton-internal-",
           Paths := ["volumeMounts.name"] }
  else none

/-- The loop body of `validateSteps`, carrying the encountered-name set and
the running index. -/
def validateStepsGo : List String → Nat → List Step → Option FieldError
  | _, _, [] => none
  | names, idx, s :: rest =>
    if s.Image = "" then some (ErrMissingField "Image")
    else if s.Script ≠ "" ∧ s.Command ≠ [] then some (scriptCommandError idx)
    else if s.Name ≠ "" ∧ names.contains s.Name then some (ErrInvalidValue s.Name "name")
    else
      match firstErr (s.VolumeMounts.map (stepVolumeMountErr idx)) with
      | some e => some e
      | none =>
        validateStepsGo (if s.Name ≠ "" then s.Name :: names else names) (idx + 1) rest

/-- `validateSteps` from the source. -/
def validateSteps (steps : List Step) : Option FieldError :=
  validateStepsGo [] 0 steps

/-- The duplicate-name error of `validateDeclaredWorkspaces`. -/
def wsNameError (n : String) : FieldError :=
  { Message := "workspace name " ++ n ++ " must be unique", Paths := ["workspaces.name"] }

/-- The mount-path-conflict error of `validateDeclaredWorkspaces`. -/
def wsPathError (p : String) : FieldError :=
  { Message := "workspace mount path " ++ p ++ " must be unique",
    Paths := ["workspaces.mountpath"] }

/-- The workspace fold of `validateDeclaredWorkspaces`: names must be unique,
and each workspace's resolved, cleaned mount path must avoid the accumulated
path set, to which it is then added. -/
def wsGo : List String → List String → List WorkspaceDeclaration → Option FieldError
  | _, _, [] => none
  | mountPaths, wsNames, w :: rest =>
    if wsNames.contains w.Name then some (wsNameError w.Name)
    else
      let mountPath := filepathClean w.GetMountPath
      if mountPaths.contains mountPath then some (wsPathError mountPath)
      else wsGo (mountPath :: mountPaths) (w.Name :: wsNames) rest

/-- The accumulated cleaned mount paths of all step and step-template volume
mounts, seeding the workspace fold. -/
def workspaceMountPaths (steps : List Step) (stepTemplate : Option Container) : List String :=
  (steps.map (fun step => step.VolumeMounts.map (fun vm => filepathClean vm.MountPath))).flatten
  ++ (match stepTemplate with
      | some t => t.VolumeMounts.map (fun vm => filepathClean vm.MountPath)
      | none => [])

/-- `validateDeclaredWorkspaces` from the source: accumulate the cleaned
step and step-template volume-mount paths, then fold in the workspaces. -/
def validateDeclaredWorkspaces (workspaces : List WorkspaceDeclaration) (steps : List Step)
    (stepTemplate : Option Container) : Option FieldError :=
  wsGo (workspaceMountPaths steps stepTemplate) [] workspaces

/-- The volume-name fold of `ValidateVolumes`. -/
def volumesGo : List String → List Volume → Option FieldError
  | _, [] => none
  | vols, v :: rest =>
    if vols.contains v.Name then
      some { Message := "multiple volumes with same name " ++ v.Name, Paths := ["name"] }
    else volumesGo (v.Name :: vols) rest

/-- `ValidateVolumes` from the source. -/
def ValidateVolumes (volumes : List Volume) : Option FieldError :=
  volumesGo [] volumes

/-- The type mismatch error of `validateInputParameterTypes`. -/
def paramMismatchError (root : String) (p : ParamSpec) (d : ArrayOrString) : FieldError :=
  { Message := "\"" ++ p.type ++ "\" type does not match default value's type: \"" ++
      d.type ++ "\"",
    Paths := [root ++ p.Name ++ ".type", root ++ p.Name ++ ".default.type"] }

/-- The per-parameter check of `validateInputParameterTypes`: the declared
type must be recognized, and a present default's tagged type must equal it. -/
def paramTypeCheck (root : String) (p : ParamSpec) : Option FieldError :=
  if ¬ AllParamTypes.contains p.type then
    some (ErrInvalidValue p.type (root ++ p.Name ++ ".type"))
  else
    match p.Default with
    | some d => if d.type ≠ p.type then some (paramMismatchError root p d) else none
    | none => none

/-- `validateInputParameterTypes` from the source. -/
def validateInputParameterTypes (inputs : Inputs) : Option FieldError :=
  firstErr (inputs.Params.map (paramTypeCheck "taskspec.inputs.params."))

/-- The case-insensitive duplicate fold of `checkForDuplicates`. -/
def dupGo (path : String) : List String → List TaskResource → Option FieldError
  | _, [] => none
  | encountered, r :: rest =>
    if encountered.contains (strToLower r.Name) then some (ErrMultipleOneOf [path])
    else dupGo path (strToLower r.Name :: encountered) rest

/-- `checkForDuplicates` from the source. -/
def checkForDuplicates (resources : List TaskResource) (path : String) : Option FieldError :=
  dupGo path [] resources

/-- `validateResourceType` from the source. -/
def validateResourceType (r : TaskResource) (path : String) : Option FieldError :=
  if AllResourceTypes.contains r.type then none else some (ErrInvalidValue r.type path)

/-! ## Modelled collaborators of the façade

The façade calls several validators of this repository whose sources are not
under src/ (the v1alpha2 validators, the step-template merge).  They are
modelled from the spec here. -/

/-- Modelled from the spec: merging combines the shared step template's
container fields into each step, the step's own values taking precedence and
the template's list entries preceding the step's
(`MergeStepsWithStepTemplate` is not under src/; with no template the steps
are unchanged). -/
def mergeStep (tpl : Container) (s : Step) : Step :=
  { Name := if s.Name = "" then tpl.Name else s.Name
    Image := if s.Image = "" then tpl.Image else s.Image
    Command := if s.Command = [] then tpl.Command else s.Command
    Args := if s.Args = [] then tpl.Args else s.Args
    Script := s.Script
    WorkingDir := if s.WorkingDir = "" then tpl.WorkingDir else s.WorkingDir
    Env := tpl.Env ++ s.Env
    VolumeMounts := tpl.VolumeMounts ++ s.VolumeMounts }

/-- Modelled from the spec: `MergeStepsWithStepTemplate` applied to the whole
step sequence. -/
def MergeStepsWithStepTemplate : Option Container → List Step → List Step
  | none, steps => steps
  | some tpl, steps => steps.map (mergeStep tpl)

/-- Modelled from the spec: duplicate-name fold for new-style resource
declarations. -/
def resNamesGo (path : String) : List String → List TaskResource → Option FieldError
  | _, [] => none
  | seen, r :: rest =>
    if seen.contains r.Name then
      some { Message := "duplicate resource name " ++ r.Name, Paths := [path ++ ".name"] }
    else resNamesGo path (r.Name :: seen) rest

/-- Modelled from the spec: one new-style resource list is valid when every
declared type belongs to the allowed enumeration and names are unique. -/
def taskResourcesListCheck (resources : List TaskResource) (path : String) :
    Option FieldError :=
  seqE (firstErr (resources.map (fun r =>
          if AllResourceTypes.contains r.type then none
          else some { Message := "invalid resource type " ++ r.type,
                      Paths := [path ++ ".type"] })))
    (resNamesGo path [] resources)

/-- Modelled from the spec: `v1alpha2.TaskResources.Validate` (not under
src/): the new-style input and output resource declarations must carry
recognized types and unique names. -/
def TaskResources.Validate (tr : TaskResources) : Option FieldError :=
  seqE (taskResourcesListCheck tr.Inputs "resources.inputs")
    (taskResourcesListCheck tr.Outputs "resources.outputs")

namespace V1alpha2

/-- Modelled from the spec: the new-style parameter-type validation
(`v1alpha2.ValidateParameterTypes`, not under src/), mirroring the legacy
check at the new-style field root. -/
def ValidateParameterTypes (params : List ParamSpec) : Option FieldError :=
  firstErr (params.map (paramTypeCheck "params."))

/-- Modelled from the spec: the new-style resolution walk, whose scope is the
plain given prefix rather than the legacy inputs/outputs alternation. -/
def validateVariables (steps : List Step) (pfx : String) (vars : List String) :
    Option FieldError :=
  firstErr (steps.map (fun step => firstErr (stepWalk
    (fun n v => Substitution.ValidateVariable n v [pfx] "step" "taskspec.steps" vars)
    (fun n v => Substitution.ValidateVariable n v [pfx] "step" "taskspec.steps" vars) step)))

/-- Modelled from the spec: the new-style array-usage walk. -/
def validateArrayUsage (steps : List Step) (pfx : String) (vars : List String) :
    Option FieldError :=
  firstErr (steps.map (fun step => firstErr (stepWalk
    (fun n v => Substitution.ValidateVariableProhibited n v [pfx] "step" "taskspec.steps" vars)
    (fun n v => Substitution.ValidateVariableIsolated n v [pfx] "step" "taskspec.steps" vars)
    step)))

/-- Modelled from the spec: `v1alpha2.ValidateParameterVariables` (not under
src/). -/
def ValidateParameterVariables (steps : List Step) (params : List ParamSpec) :
    Option FieldError :=
  let parameterNames := params.map ParamSpec.Name
  let arrayParameterNames :=
    (params.filter (fun p => p.type = ParamTypeArray)).map ParamSpec.Name
  seqE (validateVariables steps "params" parameterNames)
    (validateArrayUsage steps "params" arrayParameterNames)

/-- Modelled from the spec: `v1alpha2.ValidateResourcesVariables` (not under
src/). -/
def ValidateResourcesVariables (steps : List Step) (resources : Option TaskResources) :
    Option FieldError :=
  match resources with
  | none => none
  | some r =>
    validateVariables steps "resources"
      (r.Inputs.map TaskResource.Name ++ r.Outputs.map TaskResource.Name)

end V1alpha2

/-! ## The validator façade (`TaskSpec.Validate` from the source) -/

/-- The DNS-label error of the façade's step-name loop. -/
def dnsLabelError (n : String) : FieldError :=
  { Message := "invalid value " ++ n,
    Paths := ["taskspec.steps.name"],
    Details := "Task step name must be a valid DNS Label, For more info refer to the " ++
      "kubernetes object-name documentation" }

/-- The mutually-exclusive declaration-group checks of the façade, in source
order: legacy inputs.params against new-style params, legacy inputs.resources
against new-style resources.inputs, then legacy outputs.resources against
new-style resources.outputs. -/
def exclusivityChecks (ts : TaskSpec) : Option FieldError :=
  seqE (match ts.Inputs with
        | some inputs =>
          seqE (if inputs.Params ≠ [] ∧ ts.Params ≠ [] then
                  some (ErrMultipleOneOf ["inputs.params", "params"])
                else none)
            (match ts.Resources with
             | some r =>
               if r.Inputs ≠ [] ∧ inputs.Resources ≠ [] then
                 some (ErrMultipleOneOf ["inputs.resources", "resources.inputs"])
               else none
             | none => none)
        | none => none)
    (match ts.Outputs with
     | some outputs =>
       match ts.Resources with
       | some r =>
         if r.Outputs ≠ [] ∧ outputs.Resources ≠ [] then
           some (ErrMultipleOneOf ["outputs.resources", "resources.outputs"])
         else none
       | none => none
     | none => none)

/-- The deprecated legacy-inputs block of the façade: resource types,
case-insensitive duplicate names, then parameter types. -/
def legacyInputsBlock (ts : TaskSpec) : Option FieldError :=
  match ts.Inputs with
  | some inputs =>
    seqE (firstErr (inputs.Resources.map (fun r =>
            validateResourceType r ("taskspec.Inputs.Resources." ++ r.Name ++ ".Type"))))
      (seqE (checkForDuplicates inputs.Resources "taskspec.Inputs.Resources.Name")
        (validateInputParameterTypes inputs))
  | none => none

/-- The deprecated legacy-outputs block of the façade. -/
def legacyOutputsBlock (ts : TaskSpec) : Option FieldError :=
  match ts.Outputs with
  | some outputs =>
    seqE (firstErr (outputs.Resources.map (fun r =>
            validateResourceType r ("taskspec.Outputs.Resources." ++ r.Name ++ ".Type"))))
      (checkForDuplicates outputs.Resources "taskspec.Outputs.Resources.Name")
  | none => none

/-- The façade's step-name DNS-label loop. -/
def dnsLabelCheck (ts : TaskSpec) : Option FieldError :=
  firstErr (ts.Steps.map (fun step =>
    if step.Name ≠ "" ∧ ¬ isDNS1123Label step.Name then some (dnsLabelError step.Name)
    else none))

/-- `TaskSpec.Validate` from the source: the full validation pass,
short-circuiting on the first failure.  (The source's merge-error branch is
unreachable here because the modelled merge is total.) -/
def TaskSpec.Validate (ts : TaskSpec) : Option FieldError :=
  if ts = emptyTaskSpec then some (ErrMissingField "") else
  if ts.Steps = [] then some (ErrMissingField "steps") else
  seqE (optViaField (ValidateVolumes ts.Volumes) "volumes")
  (seqE (validateDeclaredWorkspaces ts.Workspaces ts.Steps ts.StepTemplate)
  (seqE (optViaField (validateSteps (MergeStepsWithStepTemplate ts.StepTemplate ts.Steps))
          "steps")
  (seqE (exclusivityChecks ts)
  (seqE (match ts.Resources with
         | some r => r.Validate
         | none => none)
  (seqE (V1alpha2.ValidateParameterTypes ts.Params)
  (seqE (legacyInputsBlock ts)
  (seqE (legacyOutputsBlock ts)
  (seqE (dnsLabelCheck ts)
  (seqE (V1alpha2.ValidateParameterVariables ts.Steps ts.Params)
  (seqE (validateInputParameterVariables ts.Steps ts.Inputs ts.Params)
  (seqE (V1alpha2.ValidateResourcesVariables ts.Steps ts.Resources)
  (validateResourceVariables ts.Steps ts.Inputs ts.Outputs ts.Resources))))))))))))

/-! ## Statement-support predicates -/

/-- The per-mount conditions of `validateSteps` other than nothing: the
reserved-path raw-prefix test and the reserved-name prefix test both pass. -/
def stepMountChecksOk (s : Step) : Prop :=
  ∀ vm ∈ s.VolumeMounts,
    (strHasPrefix vm.MountPath "/tekton/" && !strHasPrefix vm.MountPath "/tekton/home") = false ∧
    strHasPrefix vm.Name "tekton-internal-" = false

/-- All per-step checks of `validateSteps` other than name uniqueness pass. -/
def stepChecksOk (s : Step) : Prop :=
  s.Image ≠ "" ∧ ¬(s.Script ≠ "" ∧ s.Command ≠ []) ∧ stepMountChecksOk s

/-- Decidability of the per-mount cleanliness conditions. -/
instance (s : Step) : Decidable (stepMountChecksOk s) :=
  decidable_of_iff (∀ vm ∈ s.VolumeMounts,
    (strHasPrefix vm.MountPath "/tekton/" && !strHasPrefix vm.MountPath "/tekton/home") = false ∧
    strHasPrefix vm.Name "tekton-internal-" = false) Iff.rfl

/-- Decidability of the per-step cleanliness conditions. -/
instance (s : Step) : Decidable (stepChecksOk s) :=
  decidable_of_iff (s.Image ≠ "" ∧ ¬(s.Script ≠ "" ∧ s.Command ≠ []) ∧ stepMountChecksOk s)
    Iff.rfl

/-- The relation maintained by `validateSteps`' duplicate-name fold: no
non-empty step name repeats an earlier one or one from the seen set. -/
def noDupNames (seen : List String) : List String → Prop
  | [] => True
  | n :: rest => (n ≠ "" → n ∉ seen) ∧ noDupNames (if n ≠ "" then n :: seen else seen) rest

/-! ## Combinator lemmas -/

theorem seqE_eq_none_iff (a b : Option FieldError) : seqE a b = none ↔ a = none ∧ b = none := by
  cases a <;> simp [seqE]

theorem seqE_eq_some_iff (a b : Option FieldError) (e : FieldError) :
    seqE a b = some e ↔ a = some e ∨ (a = none ∧ b = some e) := by
  cases a <;> simp [seqE]

theorem seqE_none_left (b : Option FieldError) : seqE none b = b := rfl

theorem firstErr_cons (o : Option FieldError) (l : List (Option FieldError)) :
    firstErr (o :: l) = seqE o (firstErr l) := by
  cases o <;> simp [firstErr, seqE]

theorem firstErr_append (l1 l2 : List (Option FieldError)) :
    firstErr (l1 ++ l2) = seqE (firstErr l1) (firstErr l2) := by
  induction l1 with
  | nil => simp [firstErr, seqE]
  | cons o rest ih =>
    cases o with
    | none => simpa [firstErr] using ih
    | some e => simp [firstErr, seqE]

theorem firstErr_eq_none_iff (l : List (Option FieldError)) :
    firstErr l = none ↔ ∀ o ∈ l, o = none := by
  induction l with
  | nil => simp [firstErr]
  | cons o rest ih =>
    cases o with
    | none => simp [firstErr, ih]
    | some e => simp [firstErr]

theorem firstErr_eq_some_mem (l : List (Option FieldError)) (e : FieldError)
    (h : firstErr l = some e) : some e ∈ l := by
  induction l with
  | nil => simp [firstErr] at h
  | cons o rest ih =>
    cases o with
    | none => exact List.mem_cons_of_mem _ (ih (by simpa [firstErr] using h))
    | some e' =>
      simp [firstErr] at h
      simp [h]

theorem firstErr_map_eq_none_iff {α : Type} (f : α → Option FieldError) (l : List α) :
    firstErr (l.map f) = none ↔ ∀ x ∈ l, f x = none := by
  simp [firstErr_eq_none_iff]

theorem firstErr_map_eq_some {α : Type} (f : α → Option FieldError) (l : List α)
    (e : FieldError) (h : firstErr (l.map f) = some e) : ∃ x ∈ l, f x = some e := by
  have := firstErr_eq_some_mem _ _ h
  simp only [List.mem_map] at this
  obtain ⟨x, hx, hfx⟩ := this
  exact ⟨x, hx, hfx⟩

theorem mem_idxMap {α β : Type} (f : Nat → α → β) (n : Nat) (l : List α) (b : β)
    (h : b ∈ idxMap f n l) : ∃ i x, x ∈ l ∧ b = f i x := by
  induction l generalizing n with
  | nil => simp [idxMap] at h
  | cons a rest ih =>
    simp only [idxMap, List.mem_cons] at h
    rcases h with h | h
    · exact ⟨n, a, List.mem_cons_self _ _, h⟩
    · obtain ⟨i, x, hx, hb⟩ := ih (n + 1) h
      exact ⟨i, x, List.mem_cons_of_mem _ hx, hb⟩

theorem idxMap_map {α β γ : Type} (g : Nat → α → β) (h : β → γ) (n : Nat) (l : List α) :
    (idxMap g n l).map h = idxMap (fun i a => h (g i a)) n l := by
  induction l generalizing n with
  | nil => simp [idxMap]
  | cons a rest ih => simp [idxMap, ih]

theorem contains_iff_mem (l : List String) (a : String) : l.contains a = true ↔ a ∈ l := by
  simp [List.contains_iff_exists_mem_beq, beq_iff_eq]

/-! ## Single-field validator lemmas -/

theorem contains_eq_false_iff (l : List String) (a : String) : l.contains a = false ↔ a ∉ l := by
  rw [← contains_iff_mem]
  cases h : l.contains a <;> simp

theorem validateVariable_eq_none_iff (name value : String) (scopes : List String)
    (loc path : String) (vars : List String) :
    Substitution.ValidateVariable name value scopes loc path vars = none ↔
      ∀ r ∈ extractRefs scopes value, r.1 ∈ vars := by
  unfold Substitution.ValidateVariable
  rcases h : (extractRefs scopes value).find? (fun r => !(vars.contains r.1)) with _ | r
  · rw [h]
    refine iff_of_true rfl ?_
    rw [List.find?_eq_none] at h
    intro r hr
    have hx := h r hr
    simp only [Bool.not_eq_true', contains_eq_false_iff, not_not] at hx
    exact hx
  · rw [h]
    have hmem := List.find?_some h
    have hr := List.mem_of_find?_eq_some h
    simp only [Bool.not_eq_true', contains_eq_false_iff] at hmem
    refine iff_of_false (fun hco => Option.noConfusion hco) ?_
    intro hall
    exact hmem (hall r hr)

theorem validateVariable_eq_some (name value : String) (scopes : List String)
    (loc path : String) (vars : List String) (e : FieldError)
    (h : Substitution.ValidateVariable name value scopes loc path vars = some e) :
    (∃ r ∈ extractRefs scopes value, r.1 ∉ vars) ∧
      e = unresolvedRefError name value loc path := by
  unfold Substitution.ValidateVariable at h
  rcases hf : (extractRefs scopes value).find? (fun r => !(vars.contains r.1)) with _ | r
  · rw [hf] at h
    exact Option.noConfusion h
  · rw [hf] at h
    have he : unresolvedRefError name value loc path = e := Option.some.inj h
    have hmem := List.find?_some hf
    have hr := List.mem_of_find?_eq_some hf
    simp only [Bool.not_eq_true', contains_eq_false_iff] at hmem
    exact ⟨⟨r, hr, hmem⟩, he.symm⟩

theorem validateVariableProhibited_eq_none_iff (name value : String) (scopes : List String)
    (loc path : String) (vars : List String) :
    Substitution.ValidateVariableProhibited name value scopes loc path vars = none ↔
      ∀ r ∈ extractRefs scopes value, r.1 ∉ vars := by
  unfold Substitution.ValidateVariableProhibited
  rcases h : (extractRefs scopes value).find? (fun r => vars.contains r.1) with _ | r
  · rw [h]
    refine iff_of_true rfl ?_
    rw [List.find?_eq_none] at h
    intro r hr
    have hx := h r hr
    simp only [Bool.not_eq_true, contains_eq_false_iff] at hx
    exact hx
  · rw [h]
    have hmem := List.find?_some h
    have hr := List.mem_of_find?_eq_some h
    rw [contains_iff_mem] at hmem
    refine iff_of_false (fun hco => Option.noConfusion hco) ?_
    intro hall
    exact hall r hr hmem

theorem validateVariableProhibited_eq_some (name value : String) (scopes : List String)
    (loc path : String) (vars : List String) (e : FieldError)
    (h : Substitution.ValidateVariableProhibited name value scopes loc path vars = some e) :
    (∃ r ∈ extractRefs scopes value, r.1 ∈ vars) ∧
      e = prohibitedRefError name value loc path := by
  unfold Substitution.ValidateVariableProhibited at h
  rcases hf : (extractRefs scopes value).find? (fun r => vars.contains r.1) with _ | r
  · rw [hf] at h
    exact Option.noConfusion h
  · rw [hf] at h
    have he : prohibitedRefError name value loc path = e := Option.some.inj h
    have hmem := List.find?_some hf
    have hr := List.mem_of_find?_eq_some hf
    rw [contains_iff_mem] at hmem
    exact ⟨⟨r, hr, hmem⟩, he.symm⟩

theorem validateVariableIsolated_eq_none_iff (name value : String) (scopes : List String)
    (loc path : String) (vars : List String) :
    Substitution.ValidateVariableIsolated name value scopes loc path vars = none ↔
      ∀ r ∈ extractRefs scopes value, r.1 ∈ vars → r.2 = true := by
  unfold Substitution.ValidateVariableIsolated
  rcases h : (extractRefs scopes value).find? (fun r => vars.contains r.1 && !r.2) with _ | r
  · rw [h]
    refine iff_of_true rfl ?_
    rw [List.find?_eq_none] at h
    intro r hr hin
    have hx := h r hr
    simp only [Bool.and_eq_true, Bool.not_eq_true', not_and, contains_iff_mem] at hx
    have := hx hin
    cases hb : r.2
    · exact absurd hb this
    · rfl
  · rw [h]
    have hmem := List.find?_some h
    have hr := List.mem_of_find?_eq_some h
    simp only [Bool.and_eq_true, Bool.not_eq_true', contains_iff_mem] at hmem
    refine iff_of_false (fun hco => Option.noConfusion hco) ?_
    intro hall
    have := hall r hr hmem.1
    rw [this] at hmem
    exact Bool.noConfusion hmem.2

theorem validateVariableIsolated_eq_some (name value : String) (scopes : List String)
    (loc path : String) (vars : List String) (e : FieldError)
    (h : Substitution.ValidateVariableIsolated name value scopes loc path vars = some e) :
    (∃ r ∈ extractRefs scopes value, r.1 ∈ vars ∧ r.2 = false) ∧
      e = notIsolatedRefError name value loc path := by
  unfold Substitution.ValidateVariableIsolated at h
  rcases hf : (extractRefs scopes value).find? (fun r => vars.contains r.1 && !r.2) with _ | r
  · rw [hf] at h
    exact Option.noConfusion h
  · rw [hf] at h
    have he : notIsolatedRefError name value loc path = e := Option.some.inj h
    have hmem := List.find?_some hf
    have hr := List.mem_of_find?_eq_some hf
    simp only [Bool.and_eq_true, Bool.not_eq_true', contains_iff_mem] at hmem
    exact ⟨⟨r, hr, hmem⟩, he.symm⟩

/-! ## Step-walk lemmas -/

theorem seqE_assoc (a b c : Option FieldError) : seqE (seqE a b) c = seqE a (seqE b c) := by
  cases a <;> simp [seqE]

theorem vmChunk_firstErr (ch : String → String → Option FieldError) (n : Nat)
    (l : List VolumeMount) :
    firstErr (idxMap (fun i v => firstErr
        [ch ("volumeMount[" ++ toString i ++ "].Name") v.Name,
         ch ("volumeMount[" ++ toString i ++ "].MountPath") v.MountPath,
         ch ("volumeMount[" ++ toString i ++ "].SubPath") v.SubPath]) n l)
      = firstErr (((idxMap (fun i v =>
          [(("volumeMount[" ++ toString i ++ "].Name"), v.Name),
           (("volumeMount[" ++ toString i ++ "].MountPath"), v.MountPath),
           (("volumeMount[" ++ toString i ++ "].SubPath"), v.SubPath)]) n l).flatten).map
            (fun p => ch p.1 p.2)) := by
  induction l generalizing n with
  | nil => rfl
  | cons v rest ih =>
    rw [idxMap, firstErr_cons, ih, idxMap, List.flatten_cons, List.map_append, firstErr_append]
    rfl

theorem stepWalk_firstErr (chA chC : String → String → Option FieldError) (s : Step) :
    firstErr (stepWalk chA chC s) =
      seqE (firstErr ((namedFieldPairs s).map (fun p => chA p.1 p.2)))
      (seqE (firstErr ((cmdPairs s).map (fun p => chC p.1 p.2)))
      (seqE (firstErr ((argPairs s).map (fun p => chC p.1 p.2)))
      (seqE (firstErr ((envPairs s).map (fun p => chA p.1 p.2)))
            (firstErr ((vmPairs s).map (fun p => chA p.1 p.2)))))) := by
  unfold stepWalk namedFieldPairs cmdPairs argPairs envPairs vmPairs
  rw [firstErr_append, firstErr_append, firstErr_append, firstErr_append,
    seqE_assoc, seqE_assoc, seqE_assoc]
  rw [idxMap_map, idxMap_map, List.map_map, ← vmChunk_firstErr]
  rfl

theorem stepWalk_uniform (f : String → String → Option FieldError) (s : Step) :
    firstErr (stepWalk f f s) = firstErr ((stepFieldPairs s).map (fun p => f p.1 p.2)) := by
  rw [stepWalk_firstErr]
  unfold stepFieldPairs
  rw [List.map_append, List.map_append, List.map_append, List.map_append,
    firstErr_append, firstErr_append, firstErr_append, firstErr_append,
    seqE_assoc, seqE_assoc, seqE_assoc]

theorem stepWalk_eq_none_iff (chA chC : String → String → Option FieldError) (s : Step) :
    firstErr (stepWalk chA chC s) = none ↔
      (∀ p ∈ scalarFieldPairs s, chA p.1 p.2 = none) ∧
      (∀ p ∈ commandArgPairs s, chC p.1 p.2 = none) := by
  rw [stepWalk_firstErr]
  simp only [seqE_eq_none_iff, firstErr_map_eq_none_iff, scalarFieldPairs, commandArgPairs,
    List.mem_append]
  constructor
  · rintro ⟨h1, h2, h3, h4, h5⟩
    refine ⟨fun p hp => ?_, fun p hp => ?_⟩
    · rcases hp with (hp | hp) | hp
      exacts [h1 p hp, h4 p hp, h5 p hp]
    · rcases hp with hp | hp
      exacts [h2 p hp, h3 p hp]
  · rintro ⟨hA, hC⟩
    exact ⟨fun p hp => hA p (Or.inl (Or.inl hp)), fun p hp => hC p (Or.inl hp),
      fun p hp => hC p (Or.inr hp), fun p hp => hA p (Or.inl (Or.inr hp)),
      fun p hp => hA p (Or.inr hp)⟩

theorem stepWalk_eq_some (chA chC : String → String → Option FieldError) (s : Step)
    (e : FieldError) (h : firstErr (stepWalk chA chC s) = some e) :
    (∃ p ∈ scalarFieldPairs s, chA p.1 p.2 = some e) ∨
    (∃ p ∈ commandArgPairs s, chC p.1 p.2 = some e) := by
  rw [stepWalk_firstErr] at h
  simp only [seqE_eq_some_iff] at h
  rcases h with h | ⟨-, h | ⟨-, h | ⟨-, h | ⟨-, h⟩⟩⟩⟩
  · obtain ⟨p, hp, hc⟩ := firstErr_map_eq_some _ _ _ h
    exact Or.inl ⟨p, by simp [scalarFieldPairs, hp], hc⟩
  · obtain ⟨p, hp, hc⟩ := firstErr_map_eq_some _ _ _ h
    exact Or.inr ⟨p, by simp [commandArgPairs, hp], hc⟩
  · obtain ⟨p, hp, hc⟩ := firstErr_map_eq_some _ _ _ h
    exact Or.inr ⟨p, by simp [commandArgPairs, hp], hc⟩
  · obtain ⟨p, hp, hc⟩ := firstErr_map_eq_some _ _ _ h
    exact Or.inl ⟨p, by simp [scalarFieldPairs, hp], hc⟩
  · obtain ⟨p, hp, hc⟩ := firstErr_map_eq_some _ _ _ h
    exact Or.inl ⟨p, by simp [scalarFieldPairs, hp], hc⟩

/-! ## Walker lemmas -/

theorem validateVariables_eq_none_iff (steps : List Step) (pfx : String) (vars : List String) :
    validateVariables steps pfx vars = none ↔
      ∀ s ∈ steps, ∀ p ∈ stepFieldPairs s, ∀ r ∈ extractRefs (taskScopes pfx) p.2,
        r.1 ∈ vars := by
  unfold validateVariables
  rw [firstErr_map_eq_none_iff]
  simp only [stepWalk_uniform, firstErr_map_eq_none_iff, validateTaskVariable,
    validateVariable_eq_none_iff]

theorem validateVariables_eq_some (steps : List Step) (pfx : String) (vars : List String)
    (e : FieldError) (h : validateVariables steps pfx vars = some e) :
    ∃ s ∈ steps, ∃ p ∈ stepFieldPairs s,
      (∃ r ∈ extractRefs (taskScopes pfx) p.2, r.1 ∉ vars) ∧
      e = unresolvedRefError p.1 p.2 "step" "taskspec.steps" := by
  unfold validateVariables at h
  obtain ⟨s, hs, h2⟩ := firstErr_map_eq_some _ _ _ h
  rw [stepWalk_uniform] at h2
  obtain ⟨p, hp, h3⟩ := firstErr_map_eq_some _ _ _ h2
  simp only [validateTaskVariable] at h3
  have hres := validateVariable_eq_some _ _ _ _ _ _ _ h3
  exact ⟨s, hs, p, hp, hres.1, hres.2⟩

theorem validateArrayUsage_eq_none_iff (steps : List Step) (pfx : String) (vars : List String) :
    validateArrayUsage steps pfx vars = none ↔
      ∀ s ∈ steps,
        (∀ p ∈ scalarFieldPairs s, ∀ r ∈ extractRefs (taskScopes pfx) p.2, r.1 ∉ vars) ∧
        (∀ p ∈ commandArgPairs s, ∀ r ∈ extractRefs (taskScopes pfx) p.2,
          r.1 ∈ vars → r.2 = true) := by
  unfold validateArrayUsage
  rw [firstErr_map_eq_none_iff]
  simp only [stepWalk_eq_none_iff, validateTaskNoArrayReferenced, validateTaskArraysIsolated,
    validateVariableProhibited_eq_none_iff, validateVariableIsolated_eq_none_iff]

theorem stepWalker_eq_some_paths (chA chC : String → String → Option FieldError)
    (steps : List Step) (e : FieldError)
    (hA : ∀ n v e', chA n v = some e' → ∃ s, e'.Paths = [s])
    (hC : ∀ n v e', chC n v = some e' → ∃ s, e'.Paths = [s])
    (h : firstErr (steps.map (fun step => firstErr (stepWalk chA chC step))) = some e) :
    ∃ s, e.Paths = [s] := by
  obtain ⟨st, hst, h2⟩ := firstErr_map_eq_some _ _ _ h
  rcases stepWalk_eq_some _ _ _ _ h2 with ⟨p, hp, hc⟩ | ⟨p, hp, hc⟩
  · exact hA _ _ _ hc
  · exact hC _ _ _ hc

theorem substVariable_some_paths (scopes : List String) (loc path : String)
    (vars : List String) : ∀ n v e',
    Substitution.ValidateVariable n v scopes loc path vars = some e' → ∃ s, e'.Paths = [s] := by
  intro n v e' h
  have := (validateVariable_eq_some _ _ _ _ _ _ _ h).2
  exact ⟨path ++ "." ++ n, by rw [this]; rfl⟩

theorem substProhibited_some_paths (scopes : List String) (loc path : String)
    (vars : List String) : ∀ n v e',
    Substitution.ValidateVariableProhibited n v scopes loc path vars = some e' →
      ∃ s, e'.Paths = [s] := by
  intro n v e' h
  have := (validateVariableProhibited_eq_some _ _ _ _ _ _ _ h).2
  exact ⟨path ++ "." ++ n, by rw [this]; rfl⟩

theorem substIsolated_some_paths (scopes : List String) (loc path : String)
    (vars : List String) : ∀ n v e',
    Substitution.ValidateVariableIsolated n v scopes loc path vars = some e' →
      ∃ s, e'.Paths = [s] := by
  intro n v e' h
  have := (validateVariableIsolated_eq_some _ _ _ _ _ _ _ h).2
  exact ⟨path ++ "." ++ n, by rw [this]; rfl⟩

theorem validateVariables_some_paths (steps : List Step) (pfx : String) (vars : List String)
    (e : FieldError) (h : validateVariables steps pfx vars = some e) : ∃ s, e.Paths = [s] :=
  stepWalker_eq_some_paths _ _ _ _
    (fun n v => substVariable_some_paths _ _ _ _ n v)
    (fun n v => substVariable_some_paths _ _ _ _ n v) h

theorem validateArrayUsage_some_paths (steps : List Step) (pfx : String) (vars : List String)
    (e : FieldError) (h : validateArrayUsage steps pfx vars = some e) : ∃ s, e.Paths = [s] :=
  stepWalker_eq_some_paths _ _ _ _
    (fun n v => substProhibited_some_paths _ _ _ _ n v)
    (fun n v => substIsolated_some_paths _ _ _ _ n v) h

theorem v1alpha2_validateVariables_some_paths (steps : List Step) (pfx : String)
    (vars : List String) (e : FieldError) (h : V1alpha2.validateVariables steps pfx vars = some e) :
    ∃ s, e.Paths = [s] :=
  stepWalker_eq_some_paths _ _ _ _
    (fun n v => substVariable_some_paths _ _ _ _ n v)
    (fun n v => substVariable_some_paths _ _ _ _ n v) h

theorem v1alpha2_validateArrayUsage_some_paths (steps : List Step) (pfx : String)
    (vars : List String) (e : FieldError) (h : V1alpha2.validateArrayUsage steps pfx vars = some e) :
    ∃ s, e.Paths = [s] :=
  stepWalker_eq_some_paths _ _ _ _
    (fun n v => substProhibited_some_paths _ _ _ _ n v)
    (fun n v => substIsolated_some_paths _ _ _ _ n v) h

/-! ## Scanner lemmas -/

theorem stripPrefixChars_eq_some (p : List Char) : ∀ cs r, stripPrefixChars p cs = some r →
    cs = p ++ r := by
  induction p with
  | nil =>
    intro cs r h
    simp [stripPrefixChars] at h
    simp [h]
  | cons a p ih =>
    intro cs r h
    cases cs with
    | nil => simp [stripPrefixChars] at h
    | cons c cs' =>
      by_cases hac : a = c
      · subst hac
        simp only [stripPrefixChars, if_pos rfl] at h
        simp [ih cs' r h]
      · simp [stripPrefixChars, hac] at h

theorem stripPrefixChars_self (p : List Char) : ∀ r, stripPrefixChars p (p ++ r) = some r := by
  induction p with
  | nil => intro r; rfl
  | cons a p ih => intro r; simp [stripPrefixChars, ih]

theorem stripPrefixChars_ne_head (a c : Char) (p cs : List Char) (h : a ≠ c) :
    stripPrefixChars (a :: p) (c :: cs) = none := by
  simp [stripPrefixChars, h]

theorem takeNameRun_spec (cs : List Char) :
    cs = (takeNameRun cs).1 ++ (takeNameRun cs).2 ∧
      ∀ c ∈ (takeNameRun cs).1, nameChar c = true := by
  induction cs with
  | nil => simp [takeNameRun]
  | cons c cs' ih =>
    by_cases hc : nameChar c = true
    · simp only [takeNameRun, if_pos hc]
      refine ⟨by simpa using ih.1, ?_⟩
      intro d hd
      rcases List.mem_cons.mp hd with rfl | hd
      · exact hc
      · exact ih.2 d hd
    · simp [takeNameRun, hc]

theorem takeNameRun_append (n : List Char) (d : Char) (rest : List Char)
    (hn : ∀ c ∈ n, nameChar c = true) (hd : nameChar d = false) :
    takeNameRun (n ++ d :: rest) = (n, d :: rest) := by
  induction n with
  | nil => simp [takeNameRun, hd]
  | cons c n' ih =>
    have hc : nameChar c = true := hn c (List.mem_cons_self _ _)
    have ih' := ih (fun x hx => hn x (List.mem_cons_of_mem _ hx))
    simp only [List.cons_append, takeNameRun, if_pos hc, List.append_eq, ih']

theorem matchScopeDot_eq_some (scopes : List (List Char)) : ∀ cs r,
    matchScopeDot scopes cs = some r → ∃ sc ∈ scopes, cs = sc ++ '.' :: r := by
  induction scopes with
  | nil => intro cs r h; simp [matchScopeDot] at h
  | cons sc rest ih =>
    intro cs r h
    unfold matchScopeDot at h
    rcases hs : stripPrefixChars (sc ++ ['.']) cs with _ | r'
    · rw [hs] at h
      obtain ⟨sc', hsc', hcs⟩ := ih cs r h
      exact ⟨sc', List.mem_cons_of_mem _ hsc', hcs⟩
    · rw [hs] at h
      have hr : r' = r := Option.some.inj h
      subst hr
      have := stripPrefixChars_eq_some _ _ _ hs
      exact ⟨sc, List.mem_cons_self _ _, by simpa using this⟩

theorem matchNameParen_eq_some (cs n rest : List Char)
    (h : matchNameParen cs = some (n, rest)) :
    cs = n ++ ')' :: rest ∧ n ≠ [] ∧ ∀ c ∈ n, nameChar c = true := by
  unfold matchNameParen at h
  rcases ht : takeNameRun cs with ⟨nm, rest'⟩
  rw [ht] at h
  have hspec := takeNameRun_spec cs
  rw [ht] at hspec
  cases nm with
  | nil => simp at h
  | cons c nm' =>
    cases rest' with
    | nil => simp at h
    | cons d rest'' =>
      by_cases hd : d = ')'
      · subst hd
        simp only [Option.some.injEq, Prod.mk.injEq] at h
        obtain ⟨hn, hrest⟩ := h
        subst hn
        subst hrest
        exact ⟨hspec.1, List.cons_ne_nil _ _, hspec.2⟩
      · simp [hd] at h

theorem matchPlaceholder_eq_some (scopes : List (List Char)) (cs n rest : List Char)
    (h : matchPlaceholder scopes cs = some (n, rest)) :
    (∃ sc ∈ scopes, cs = '$' :: '(' :: (sc ++ '.' :: (n ++ ')' :: rest))) ∧
      n ≠ [] ∧ ∀ c ∈ n, nameChar c = true := by
  unfold matchPlaceholder at h
  split at h
  case h_2 => exact Option.noConfusion h
  case h_1 cs' =>
    rcases hm : matchScopeDot scopes cs' with _ | afterScope
    · rw [hm] at h
      exact Option.noConfusion h
    · rw [hm] at h
      obtain ⟨sc, hsc, hcs'⟩ := matchScopeDot_eq_some _ _ _ hm
      obtain ⟨hafter, hne, hchars⟩ := matchNameParen_eq_some _ _ _ h
      refine ⟨⟨sc, hsc, ?_⟩, hne, hchars⟩
      rw [hcs', hafter]

theorem matchPlaceholder_length (scopes : List (List Char)) (cs n rest : List Char)
    (h : matchPlaceholder scopes cs = some (n, rest)) : rest.length < cs.length := by
  obtain ⟨⟨sc, _, hcs⟩, _, _⟩ := matchPlaceholder_eq_some _ _ _ _ h
  rw [hcs]
  simp [List.length_append]
  omega

theorem scanAux_fuel (scopes : List (List Char)) : ∀ f g : Nat, ∀ (b : Bool) (cs : List Char),
    cs.length ≤ f → cs.length ≤ g → scanAux scopes f b cs = scanAux scopes g b cs := by
  intro f
  induction f with
  | zero =>
    intro g b cs hf hg
    have : cs = [] := List.eq_nil_of_length_eq_zero (Nat.le_zero.mp hf)
    subst this
    cases g <;> rfl
  | succ f ih =>
    intro g b cs hf hg
    cases cs with
    | nil => cases g <;> rfl
    | cons c cs' =>
      cases g with
      | zero => simp at hg
      | succ g' =>
        simp only [scanAux]
        rcases hm : matchPlaceholder scopes (c :: cs') with _ | ⟨n, rest⟩
        · have hlen : cs'.length ≤ f := by simpa using hf
          have hlen' : cs'.length ≤ g' := by simpa using hg
          exact ih g' false cs' hlen hlen'
        · have hr := matchPlaceholder_length _ _ _ _ hm
          have hlen : rest.length ≤ f := by
            simp at hr hf
            omega
          have hlen' : rest.length ≤ g' := by
            simp at hr hg
            omega
          simp only [ih g' false rest hlen hlen']

theorem scanAux_false_flags (scopes : List (List Char)) : ∀ (f : Nat) (cs : List Char),
    ∀ r ∈ scanAux scopes f false cs, r.2 = false := by
  intro f
  induction f with
  | zero => intro cs r hr; simp [scanAux] at hr
  | succ f ih =>
    intro cs r hr
    cases cs with
    | nil => simp [scanAux] at hr
    | cons c cs' =>
      simp only [scanAux] at hr
      rcases hm : matchPlaceholder scopes (c :: cs') with _ | ⟨n, rest⟩
      · rw [hm] at hr
        exact ih cs' r hr
      · rw [hm] at hr
        rcases List.mem_cons.mp hr with rfl | hr'
        · rfl
        · exact ih rest r hr'

theorem scanAux_true_mem (scopes : List (List Char)) (f : Nat) (cs : List Char)
    (n : List Char) (h : (n, true) ∈ scanAux scopes f true cs) :
    matchPlaceholder scopes cs = some (n, []) := by
  cases f with
  | zero => simp [scanAux] at h
  | succ f =>
    cases cs with
    | nil => simp [scanAux] at h
    | cons c cs' =>
      simp only [scanAux] at h
      rcases hm : matchPlaceholder scopes (c :: cs') with _ | ⟨m, rest⟩
      · rw [hm] at h
        have := scanAux_false_flags scopes f cs' _ h
        simp at this
      · rw [hm] at h
        rcases List.mem_cons.mp h with heq | h'
        · have h1 : n = m := congrArg Prod.fst heq
          have h2 : (true : Bool) = (true && rest.isEmpty) := congrArg Prod.snd heq
          have h3 : rest = [] := by
            cases rest
            · rfl
            · simp [List.isEmpty] at h2
          subst h1
          subst h3
          rfl
        · have := scanAux_false_flags scopes f rest _ h'
          simp at this

theorem scanAux_whole (scopes : List (List Char)) (f : Nat) (cs n : List Char)
    (h : matchPlaceholder scopes cs = some (n, [])) (hf : cs.length ≤ f) :
    scanAux scopes f true cs = [(n, true)] := by
  obtain ⟨⟨sc, _, hcs⟩, _, _⟩ := matchPlaceholder_eq_some _ _ _ _ h
  cases f with
  | zero =>
    rw [hcs] at hf
    simp at hf
  | succ f =>
    rw [hcs]
    simp only [scanAux]
    rw [← hcs, h]
    cases f <;> rfl

theorem scanRefs_true_mem (scopes : List (List Char)) (cs n : List Char)
    (h : (n, true) ∈ scanRefs scopes cs) : matchPlaceholder scopes cs = some (n, []) :=
  scanAux_true_mem scopes cs.length cs n h

theorem scanRefs_of_whole (scopes : List (List Char)) (cs n : List Char)
    (h : matchPlaceholder scopes cs = some (n, [])) : scanRefs scopes cs = [(n, true)] :=
  scanAux_whole scopes cs.length cs n h (Nat.le_refl _)

/-! ## String-level placeholder lemmas -/

theorem string_mk_data (s : String) : String.mk s.data = s := rfl

theorem placeholder_data (sc p : String) :
    ("$(" ++ sc ++ "." ++ p ++ ")").data =
      '$' :: '(' :: (sc.data ++ '.' :: (p.data ++ [')'])) := by
  have h1 : "$(".data = ['$', '('] := rfl
  have h2 : ".".data = ['.'] := rfl
  have h3 : ")".data = [')'] := rfl
  simp [String.data_append, h1, h2, h3]

theorem taskScopes_data (pfx : String) :
    (taskScopes pfx).map String.data = [("inputs." ++ pfx).data, ("outputs." ++ pfx).data] := rfl

theorem inputsScope_data (pfx : String) :
    ("inputs." ++ pfx).data = 'i' :: 'n' :: 'p' :: 'u' :: 't' :: 's' :: '.' :: pfx.data := by
  have h1 : "inputs.".data = ['i', 'n', 'p', 'u', 't', 's', '.'] := rfl
  simp [String.data_append, h1]

theorem outputsScope_data (pfx : String) :
    ("outputs." ++ pfx).data = 'o' :: 'u' :: 't' :: 'p' :: 'u' :: 't' :: 's' :: '.' :: pfx.data := by
  have h1 : "outputs.".data = ['o', 'u', 't', 'p', 'u', 't', 's', '.'] := rfl
  simp [String.data_append, h1]

theorem stripPrefixChars_dot_self (p rest : List Char) :
    stripPrefixChars (p ++ ['.']) (p ++ '.' :: rest) = some rest := by
  rw [show p ++ '.' :: rest = (p ++ ['.']) ++ rest by simp, stripPrefixChars_self]

theorem matchScopeDot_task_inputs (pfx : String) (rest : List Char) :
    matchScopeDot [("inputs." ++ pfx).data, ("outputs." ++ pfx).data]
      (("inputs." ++ pfx).data ++ '.' :: rest) = some rest := by
  unfold matchScopeDot
  rw [stripPrefixChars_dot_self]

theorem matchScopeDot_task_outputs (pfx : String) (rest : List Char) :
    matchScopeDot [("inputs." ++ pfx).data, ("outputs." ++ pfx).data]
      (("outputs." ++ pfx).data ++ '.' :: rest) = some rest := by
  simp [matchScopeDot, stripPrefixChars, stripPrefixChars_dot_self, inputsScope_data,
    outputsScope_data]

theorem matchPlaceholder_task (pfx : String) (sc p : String) (hsc : sc ∈ taskScopes pfx)
    (hne : p.data ≠ []) (hchars : ∀ c ∈ p.data, nameChar c = true) :
    matchPlaceholder ((taskScopes pfx).map String.data)
      ("$(" ++ sc ++ "." ++ p ++ ")").data = some (p.data, []) := by
  rw [placeholder_data, taskScopes_data]
  have hname : matchNameParen (p.data ++ [')']) = some (p.data, []) := by
    unfold matchNameParen
    rw [show p.data ++ [')'] = p.data ++ ')' :: [] from rfl]
    rw [takeNameRun_append p.data ')' [] hchars (by decide)]
    obtain ⟨c, cs, hcons⟩ := List.exists_cons_of_ne_nil hne
    rw [hcons]
    rfl
  have hscope : matchScopeDot [("inputs." ++ pfx).data, ("outputs." ++ pfx).data]
      (sc.data ++ '.' :: (p.data ++ [')'])) = some (p.data ++ [')']) := by
    simp only [taskScopes, List.mem_cons, List.not_mem_nil, or_false] at hsc
    rcases hsc with rfl | rfl
    · exact matchScopeDot_task_inputs pfx _
    · exact matchScopeDot_task_outputs pfx _
  simp only [matchPlaceholder]
  rw [hscope]
  exact hname

theorem extractRefs_placeholder (pfx : String) (sc p : String) (hsc : sc ∈ taskScopes pfx)
    (hne : p.data ≠ []) (hchars : ∀ c ∈ p.data, nameChar c = true) :
    extractRefs (taskScopes pfx) ("$(" ++ sc ++ "." ++ p ++ ")") = [(p, true)] := by
  unfold extractRefs
  rw [scanRefs_of_whole _ _ _ (matchPlaceholder_task pfx sc p hsc hne hchars)]
  simp [string_mk_data]

theorem extractRefs_true_mem (pfx : String) (value q : String)
    (h : (q, true) ∈ extractRefs (taskScopes pfx) value) :
    ∃ sc ∈ taskScopes pfx, q.data ≠ [] ∧ (∀ c ∈ q.data, nameChar c = true) ∧
      value = "$(" ++ sc ++ "." ++ q ++ ")" := by
  unfold extractRefs at h
  simp only [List.mem_map, Prod.mk.injEq] at h
  obtain ⟨⟨nm, fl⟩, hmem, hq, hfl⟩ := h
  subst hfl
  have hmatch := scanRefs_true_mem _ _ _ hmem
  obtain ⟨⟨scd, hscd, hval⟩, hne, hchars⟩ := matchPlaceholder_eq_some _ _ _ _ hmatch
  simp only [List.mem_map] at hscd
  obtain ⟨sc, hsc, hscdata⟩ := hscd
  refine ⟨sc, hsc, ?_, ?_, ?_⟩
  · rw [← hq]
    exact hne
  · rw [← hq]
    exact hchars
  · apply String.ext
    rw [placeholder_data, hval, hscdata, ← hq]

/-! ## Claim C1 -/

/-- Claim C1: for a command or arg token (the per-token isolation check
`validateTaskArraysIsolated`), if the token contains a reference to a
declared array-typed parameter, then validation passes if and only if the
token is exactly the whole-field placeholder of an array parameter - a token
that is exactly the reference passes, while any token embedding the reference
in surrounding text fails - and any failure is the array-splice (isolation)
error. -/
theorem claim1_array_isolation (pfx fieldName : String) (vars : List String) (value : String)
    (href : ∃ r ∈ extractRefs (taskScopes pfx) value, r.1 ∈ vars) :
    (validateTaskArraysIsolated fieldName value pfx vars = none ↔
      ∃ sc ∈ taskScopes pfx, ∃ p ∈ vars, p.data ≠ [] ∧ (∀ c ∈ p.data, nameChar c = true) ∧
        value = "$(" ++ sc ++ "." ++ p ++ ")") ∧
    (∀ e, validateTaskArraysIsolated fieldName value pfx vars = some e →
      e = notIsolatedRefError fieldName value "step" "taskspec.steps") := by
  constructor
  · constructor
    · intro hnone
      obtain ⟨r, hr, hrv⟩ := href
      unfold validateTaskArraysIsolated at hnone
      rw [validateVariableIsolated_eq_none_iff] at hnone
      obtain ⟨q, fl⟩ := r
      have hw : fl = true := hnone (q, fl) hr hrv
      subst hw
      obtain ⟨sc, hsc, hne, hchars, hval⟩ := extractRefs_true_mem pfx value q hr
      exact ⟨sc, hsc, q, hrv, hne, hchars, hval⟩
    · rintro ⟨sc, hsc, p, hp, hne, hchars, rfl⟩
      unfold validateTaskArraysIsolated
      rw [validateVariableIsolated_eq_none_iff]
      rw [extractRefs_placeholder pfx sc p hsc hne hchars]
      rintro r hr hrv
      rcases List.mem_singleton.mp hr with rfl
      rfl
  · intro e he
    exact (validateVariableIsolated_eq_some _ _ _ _ _ _ _ he).2

/-- Witness for C1: the whole-token array reference passes and the embedded
one fails, at concrete inputs. -/
theorem claim1_array_isolation_witness :
    (∃ r ∈ extractRefs (taskScopes "params") "$(inputs.params.arr)", r.1 ∈ ["arr"]) ∧
    validateTaskArraysIsolated "command[0]" "$(inputs.params.arr)" "params" ["arr"] = none ∧
    (∃ r ∈ extractRefs (taskScopes "params") "prefix-$(inputs.params.arr)-suffix",
      r.1 ∈ ["arr"]) ∧
    validateTaskArraysIsolated "command[0]" "prefix-$(inputs.params.arr)-suffix" "params"
      ["arr"] ≠ none := by
  refine ⟨by decide, ?_, by decide, ?_⟩
  · exact (claim1_array_isolation "params" "command[0]" ["arr"] "$(inputs.params.arr)"
      (by decide)).1.mpr (by decide)
  · intro hnone
    have := (claim1_array_isolation "params" "command[0]" ["arr"]
      "prefix-$(inputs.params.arr)-suffix" (by decide)).1.mp hnone
    exact absurd this (by decide)

/-! ## Claim C2 -/

/-- Counterexample to C2 as stated: a reference to a declared array parameter
that constitutes the entire image field - a scalar-eligible-anywhere field -
does not pass; the prohibition check rejects any array reference there. -/
theorem claim2_counterexample :
    validateArrayUsage [{ Image := "$(inputs.params.arr)" : Step }] "params" ["arr"] =
      some (prohibitedRefError "image" "$(inputs.params.arr)" "step" "taskspec.steps") := by
  decide

/-- Claim C2 (amended): in the scalar-class fields (step name, image, working
directory, environment values, volume-mount name/mountPath/subPath) any
reference to a declared array parameter - whole-field or embedded - fails
validation; a declared array reference is legal only as a whole command or
arg token.  In particular a whole-field array placeholder in such a scalar
field is rejected with the prohibited-reference error. -/
theorem claim2_array_prohibited (steps : List Step) (pfx : String) (vars : List String) :
    (validateArrayUsage steps pfx vars = none ↔
      ∀ s ∈ steps,
        (∀ p ∈ scalarFieldPairs s, ∀ r ∈ extractRefs (taskScopes pfx) p.2, r.1 ∉ vars) ∧
        (∀ p ∈ commandArgPairs s, ∀ r ∈ extractRefs (taskScopes pfx) p.2,
          r.1 ∈ vars → r.2 = true)) ∧
    (∀ sc ∈ taskScopes pfx, ∀ p ∈ vars, p.data ≠ [] → (∀ c ∈ p.data, nameChar c = true) →
      validateTaskNoArrayReferenced "image" ("$(" ++ sc ++ "." ++ p ++ ")") pfx vars =
        some (prohibitedRefError "image" ("$(" ++ sc ++ "." ++ p ++ ")") "step"
          "taskspec.steps")) := by
  refine ⟨validateArrayUsage_eq_none_iff steps pfx vars, ?_⟩
  intro sc hsc p hp hne hchars
  unfold validateTaskNoArrayReferenced Substitution.ValidateVariableProhibited
  rw [extractRefs_placeholder pfx sc p hsc hne hchars]
  simp [List.find?, hp]

/-- Witness for C2: the spec's own pass scenario (array isolated as its own
command token) passes, and a whole-field array reference in the image field
is rejected, at concrete inputs. -/
theorem claim2_array_prohibited_witness :
    validateArrayUsage
      [{ Image := "busybox", Command := ["echo", "$(inputs.params.arr)"] : Step }]
      "params" ["arr"] = none ∧
    validateTaskNoArrayReferenced "image" ("$(" ++ "inputs.params" ++ "." ++ "arr" ++ ")")
      "params" ["arr"] =
      some (prohibitedRefError "image" ("$(" ++ "inputs.params" ++ "." ++ "arr" ++ ")")
        "step" "taskspec.steps") := by
  constructor
  · exact (claim2_array_prohibited
      [{ Image := "busybox", Command := ["echo", "$(inputs.params.arr)"] : Step }]
      "params" ["arr"]).1.mpr (by decide)
  · exact (claim2_array_prohibited [] "params" ["arr"]).2 "inputs.params" (by decide)
      "arr" (by decide) (by decide) (by decide)

/-! ## Claim C3 -/

/-- Claim C3: a reference resolves exactly when its name lies in the merged
namespace, which is the pure union of the new-style params list and the
legacy inputs.params list; when some scanned field of some step holds a
reference declared in neither, the resolution walk fails with the
unresolved-variable-reference error naming the offending field path, and
`validateInputParameterVariables` returns exactly that error. -/
theorem claim3_union_resolution (steps : List Step) (inputs : Option Inputs)
    (params : List ParamSpec) :
    (∀ q, q ∈ mergedParamNames inputs params ↔
      (q ∈ params.map ParamSpec.Name ∨ ∃ i, inputs = some i ∧ q ∈ i.Params.map ParamSpec.Name)) ∧
    (validateVariables steps "params" (mergedParamNames inputs params) = none ↔
      ∀ s ∈ steps, ∀ p ∈ stepFieldPairs s, ∀ r ∈ extractRefs (taskScopes "params") p.2,
        r.1 ∈ mergedParamNames inputs params) ∧
    (∀ e, validateVariables steps "params" (mergedParamNames inputs params) = some e →
      ∃ s ∈ steps, ∃ p ∈ stepFieldPairs s,
        (∃ r ∈ extractRefs (taskScopes "params") p.2,
          r.1 ∉ mergedParamNames inputs params) ∧
        e = unresolvedRefError p.1 p.2 "step" "taskspec.steps" ∧
        e.Paths = ["taskspec.steps." ++ p.1]) ∧
    (∀ e, validateVariables steps "params" (mergedParamNames inputs params) = some e →
      validateInputParameterVariables steps inputs params = some e) := by
  refine ⟨?_, validateVariables_eq_none_iff steps "params" _, ?_, ?_⟩
  · intro q
    unfold mergedParamNames
    cases inputs <;> simp
  · intro e he
    obtain ⟨s, hs, p, hp, hbad, herr⟩ := validateVariables_eq_some _ _ _ _ he
    exact ⟨s, hs, p, hp, hbad, herr, by rw [herr]; rfl⟩
  · intro e he
    unfold validateInputParameterVariables
    rw [he]
    rfl

/-- Witness for C3: a reference to an undeclared name fails and the error
names the offending field, at a concrete input. -/
theorem claim3_union_resolution_witness :
    ∃ s ∈ [{ Image := "$(inputs.params.q)" : Step }], ∃ p ∈ stepFieldPairs s,
      (∃ r ∈ extractRefs (taskScopes "params") p.2,
        r.1 ∉ mergedParamNames (some { Params := [{ Name := "legacy" }] })
          [{ Name := "new" }]) ∧
      unresolvedRefError "image" "$(inputs.params.q)" "step" "taskspec.steps" =
        unresolvedRefError p.1 p.2 "step" "taskspec.steps" ∧
      (unresolvedRefError "image" "$(inputs.params.q)" "step" "taskspec.steps").Paths =
        ["taskspec.steps." ++ p.1] :=
  (claim3_union_resolution [{ Image := "$(inputs.params.q)" : Step }]
    (some { Params := [{ Name := "legacy" }] }) [{ Name := "new" }]).2.2.1
    (unresolvedRefError "image" "$(inputs.params.q)" "step" "taskspec.steps") (by decide)

/-! ## Step-loop lemmas -/

theorem stepVolumeMountErr_eq_none_iff (idx : Nat) (vm : VolumeMount) :
    stepVolumeMountErr idx vm = none ↔
      (strHasPrefix vm.MountPath "/tekton/" && !strHasPrefix vm.MountPath "/tekton/home")
        = false ∧
      strHasPrefix vm.Name "tekton-internal-" = false := by
  unfold stepVolumeMountErr
  split_ifs with h1 h2 <;> simp_all

theorem noDupNames_iff (ns : List String) : ∀ seen : List String,
    noDupNames seen ns ↔
      (ns.filter (fun n => n ≠ "")).Nodup ∧ ∀ n ∈ ns, n ≠ "" → n ∉ seen := by
  induction ns with
  | nil => intro seen; simp [noDupNames]
  | cons n rest ih =>
    intro seen
    by_cases hn : n = ""
    · subst hn
      simp [noDupNames, ih]
    · have hfc : List.filter (fun m => decide (m ≠ "")) (n :: rest) =
          n :: List.filter (fun m => decide (m ≠ "")) rest := by
        simp [List.filter_cons, hn]
      simp only [noDupNames, if_pos hn, ih, hfc, List.nodup_cons, List.mem_filter,
        List.mem_cons, decide_eq_true_eq, not_or]
      constructor
      · rintro ⟨h1, hnodup, hseen⟩
        refine ⟨⟨?_, hnodup⟩, ?_⟩
        · rintro ⟨hmem, -⟩
          exact ((hseen n hmem hn).1 : ¬ n = n) rfl
        · rintro m (rfl | hm) hme
          · exact h1 hme
          · exact (hseen m hm hme).2
      · rintro ⟨⟨hnotin, hnodup⟩, hseen⟩
        refine ⟨fun _ => hseen n (Or.inl rfl) hn, hnodup, ?_⟩
        intro m hm hme
        refine ⟨?_, hseen m (Or.inr hm) hme⟩
        rintro rfl
        exact hnotin ⟨hm, hme⟩

theorem validateStepsGo_eq_none_of (steps : List Step) : ∀ (seen : List String) (idx : Nat),
    (∀ s ∈ steps, stepChecksOk s) → noDupNames seen (steps.map Step.Name) →
    validateStepsGo seen idx steps = none := by
  induction steps with
  | nil => intro seen idx _ _; rfl
  | cons s rest ih =>
    intro seen idx hok hnd
    obtain ⟨himg, hscript, hmounts⟩ := hok s (List.mem_cons_self _ _)
    simp only [List.map_cons, noDupNames] at hnd
    unfold validateStepsGo
    rw [if_neg himg, if_neg hscript]
    have hname : ¬(s.Name ≠ "" ∧ seen.contains s.Name = true) := by
      rintro ⟨hne, hcont⟩
      exact hnd.1 hne ((contains_iff_mem _ _).mp hcont)
    rw [if_neg hname]
    have hm : firstErr (s.VolumeMounts.map (stepVolumeMountErr idx)) = none := by
      rw [firstErr_map_eq_none_iff]
      intro vm hvm
      rw [stepVolumeMountErr_eq_none_iff]
      exact hmounts vm hvm
    rw [hm]
    exact ih _ (idx + 1) (fun x hx => hok x (List.mem_cons_of_mem _ hx)) hnd.2

theorem validateStepsGo_none_inv (steps : List Step) : ∀ (seen : List String) (idx : Nat),
    validateStepsGo seen idx steps = none →
    (∀ s ∈ steps, stepChecksOk s) ∧ noDupNames seen (steps.map Step.Name) := by
  induction steps with
  | nil => intro seen idx _; exact ⟨by simp, trivial⟩
  | cons s rest ih =>
    intro seen idx h
    unfold validateStepsGo at h
    by_cases himg : s.Image = ""
    · rw [if_pos himg] at h
      exact Option.noConfusion h
    · rw [if_neg himg] at h
      by_cases hscript : s.Script ≠ "" ∧ s.Command ≠ []
      · rw [if_pos hscript] at h
        exact Option.noConfusion h
      · rw [if_neg hscript] at h
        by_cases hname : s.Name ≠ "" ∧ seen.contains s.Name = true
        · rw [if_pos hname] at h
          exact Option.noConfusion h
        · rw [if_neg hname] at h
          rcases hm : firstErr (s.VolumeMounts.map (stepVolumeMountErr idx)) with _ | e
          · rw [hm] at h
            obtain ⟨hok, hnd⟩ := ih _ (idx + 1) h
            have hmounts : stepMountChecksOk s := by
              intro vm hvm
              rw [← stepVolumeMountErr_eq_none_iff idx]
              exact (firstErr_map_eq_none_iff _ _).mp hm vm hvm
            refine ⟨?_, ?_⟩
            · intro x hx
              rcases List.mem_cons.mp hx with rfl | hx
              · exact ⟨himg, hscript, hmounts⟩
              · exact hok x hx
            · simp only [List.map_cons, noDupNames]
              refine ⟨?_, hnd⟩
              intro hne hmem
              exact hname ⟨hne, (contains_iff_mem _ _).mpr hmem⟩
          · rw [hm] at h
            exact Option.noConfusion h

theorem validateStepsGo_eq_none_iff (steps : List Step) (seen : List String) (idx : Nat) :
    validateStepsGo seen idx steps = none ↔
      (∀ s ∈ steps, stepChecksOk s) ∧ noDupNames seen (steps.map Step.Name) :=
  ⟨validateStepsGo_none_inv steps seen idx,
   fun ⟨hok, hnd⟩ => validateStepsGo_eq_none_of steps seen idx hok hnd⟩

theorem validateSteps_eq_none_iff (steps : List Step) :
    validateSteps steps = none ↔
      (∀ s ∈ steps, stepChecksOk s) ∧
      ((steps.map Step.Name).filter (fun n => n ≠ "")).Nodup := by
  unfold validateSteps
  rw [validateStepsGo_eq_none_iff, noDupNames_iff]
  simp

theorem validateStepsGo_name_error (steps : List Step) : ∀ (seen : List String) (idx : Nat),
    (∀ s ∈ steps, stepChecksOk s) →
    validateStepsGo seen idx steps = none ∨
    ∃ n, n ≠ "" ∧ validateStepsGo seen idx steps = some (ErrInvalidValue n "name") ∧
      ((n ∈ seen ∧ n ∈ steps.map Step.Name) ∨ 2 ≤ (steps.map Step.Name).count n) := by
  induction steps with
  | nil => intro seen idx _; exact Or.inl rfl
  | cons s rest ih =>
    intro seen idx hok
    obtain ⟨himg, hscript, hmounts⟩ := hok s (List.mem_cons_self _ _)
    have hm : firstErr (s.VolumeMounts.map (stepVolumeMountErr idx)) = none := by
      rw [firstErr_map_eq_none_iff]
      intro vm hvm
      rw [stepVolumeMountErr_eq_none_iff]
      exact hmounts vm hvm
    unfold validateStepsGo
    rw [if_neg himg, if_neg hscript]
    by_cases hname : s.Name ≠ "" ∧ seen.contains s.Name = true
    · rw [if_pos hname]
      refine Or.inr ⟨s.Name, hname.1, rfl, Or.inl ⟨(contains_iff_mem _ _).mp hname.2, ?_⟩⟩
      simp
    · rw [if_neg hname, hm]
      rcases ih (if s.Name ≠ "" then s.Name :: seen else seen) (idx + 1)
          (fun x hx => hok x (List.mem_cons_of_mem _ hx)) with hnone | ⟨n, hne, herr, hcase⟩
      · exact Or.inl hnone
      · refine Or.inr ⟨n, hne, herr, ?_⟩
        rcases hcase with ⟨hseen, hmem⟩ | hcount
        · by_cases hsn : s.Name ≠ ""
          · rw [if_pos hsn] at hseen
            rcases List.mem_cons.mp hseen with rfl | hseen'
            · refine Or.inr ?_
              have h1 := List.count_pos_iff.mpr hmem
              rw [List.map_cons, List.count_cons_self]
              omega
            · exact Or.inl ⟨hseen', by simp [hmem]⟩
          · rw [if_neg hsn] at hseen
            exact Or.inl ⟨hseen, by simp [hmem]⟩
        · refine Or.inr ?_
          simp only [List.map_cons, List.count_cons]
          split <;> omega

theorem validateStepsGo_script_error (steps : List Step) : ∀ (seen : List String) (idx : Nat),
    (∀ s ∈ steps, s.Image ≠ "" ∧ stepMountChecksOk s) →
    noDupNames seen (steps.map Step.Name) →
    validateStepsGo seen idx steps = none ∨
    ∃ k, ∃ hk : k < steps.length, (steps.get ⟨k, hk⟩).Script ≠ "" ∧
      (steps.get ⟨k, hk⟩).Command ≠ [] ∧
      validateStepsGo seen idx steps = some (scriptCommandError (idx + k)) := by
  induction steps with
  | nil => intro seen idx _ _; exact Or.inl rfl
  | cons s rest ih =>
    intro seen idx hok hnd
    obtain ⟨himg, hmounts⟩ := hok s (List.mem_cons_self _ _)
    simp only [List.map_cons, noDupNames] at hnd
    unfold validateStepsGo
    rw [if_neg himg]
    by_cases hscript : s.Script ≠ "" ∧ s.Command ≠ []
    · rw [if_pos hscript]
      exact Or.inr ⟨0, Nat.succ_pos _, hscript.1, hscript.2, by rw [Nat.add_zero]⟩
    · rw [if_neg hscript]
      have hname : ¬(s.Name ≠ "" ∧ seen.contains s.Name = true) := by
        rintro ⟨hne, hcont⟩
        exact hnd.1 hne ((contains_iff_mem _ _).mp hcont)
      rw [if_neg hname]
      have hm : firstErr (s.VolumeMounts.map (stepVolumeMountErr idx)) = none := by
        rw [firstErr_map_eq_none_iff]
        intro vm hvm
        rw [stepVolumeMountErr_eq_none_iff]
        exact hmounts vm hvm
      rw [hm]
      rcases ih (if s.Name ≠ "" then s.Name :: seen else seen) (idx + 1)
          (fun x hx => hok x (List.mem_cons_of_mem _ hx)) hnd.2 with hnone | ⟨k, hk, h1, h2, herr⟩
      · exact Or.inl hnone
      · refine Or.inr ⟨k + 1, Nat.succ_lt_succ hk, ?_, ?_, ?_⟩
        · rw [List.get_cons_succ]
          exact h1
        · rw [List.get_cons_succ]
          exact h2
        · have harith : idx + 1 + k = idx + (k + 1) := by omega
          rw [← harith]
          exact herr

theorem stepVolumeMountErr_some_paths (idx : Nat) (vm : VolumeMount) (e : FieldError)
    (h : stepVolumeMountErr idx vm = some e) :
    e.Paths = ["volumeMounts.mountPath"] ∨ e.Paths = ["volumeMounts.name"] := by
  unfold stepVolumeMountErr at h
  split_ifs at h with h1 h2
  · exact Or.inl (by rw [← Option.some.inj h])
  · exact Or.inr (by rw [← Option.some.inj h])

theorem validateStepsGo_some_paths (steps : List Step) : ∀ (seen : List String) (idx : Nat)
    (e : FieldError), validateStepsGo seen idx steps = some e → ∃ p, e.Paths = [p] := by
  induction steps with
  | nil => intro seen idx e h; exact Option.noConfusion h
  | cons s rest ih =>
    intro seen idx e h
    unfold validateStepsGo at h
    by_cases himg : s.Image = ""
    · rw [if_pos himg] at h
      exact ⟨"Image", by rw [← Option.some.inj h]; rfl⟩
    · rw [if_neg himg] at h
      by_cases hscript : s.Script ≠ "" ∧ s.Command ≠ []
      · rw [if_pos hscript] at h
        exact ⟨"script", by rw [← Option.some.inj h]; rfl⟩
      · rw [if_neg hscript] at h
        by_cases hname : s.Name ≠ "" ∧ seen.contains s.Name = true
        · rw [if_pos hname] at h
          exact ⟨"name", by rw [← Option.some.inj h]; rfl⟩
        · rw [if_neg hname] at h
          rcases hm : firstErr (s.VolumeMounts.map (stepVolumeMountErr idx)) with _ | e'
          · rw [hm] at h
            exact ih _ (idx + 1) e h
          · rw [hm] at h
            have he : e' = e := Option.some.inj h
            subst he
            obtain ⟨vm, _, hvm⟩ := firstErr_map_eq_some _ _ _ hm
            rcases stepVolumeMountErr_some_paths idx vm e' hvm with hp | hp
            · exact ⟨"volumeMounts.mountPath", hp⟩
            · exact ⟨"volumeMounts.name", hp⟩

/-! ## Claims C6, C7, C10 -/

/-- Claim C6: a step sequence containing two steps with identical non-empty
names always fails validation; when the steps otherwise pass the per-step
checks, the failure is the duplicate-name invalid-value error on the step
name; steps with empty names are exempt from the uniqueness check. -/
theorem claim6_duplicate_step_names (steps : List Step) :
    (¬ ((steps.map Step.Name).filter (fun n => n ≠ "")).Nodup → validateSteps steps ≠ none) ∧
    ((∀ s ∈ steps, stepChecksOk s) →
      ¬ ((steps.map Step.Name).filter (fun n => n ≠ "")).Nodup →
      ∃ n, n ≠ "" ∧ 2 ≤ (steps.map Step.Name).count n ∧
        validateSteps steps = some (ErrInvalidValue n "name")) ∧
    ((∀ s ∈ steps, stepChecksOk s) →
      ((steps.map Step.Name).filter (fun n => n ≠ "")).Nodup → validateSteps steps = none) := by
  refine ⟨?_, ?_, ?_⟩
  · intro hdup hnone
    exact hdup ((validateSteps_eq_none_iff steps).mp hnone).2
  · intro hok hdup
    rcases validateStepsGo_name_error steps [] 0 hok with hnone | ⟨n, hne, herr, hcase⟩
    · exact absurd ((validateSteps_eq_none_iff steps).mp hnone).2 hdup
    · refine ⟨n, hne, ?_, herr⟩
      rcases hcase with ⟨hseen, -⟩ | hcount
      · exact absurd hseen (List.not_mem_nil n)
      · exact hcount
  · intro hok hnodup
    exact (validateSteps_eq_none_iff steps).mpr ⟨hok, hnodup⟩

/-- Witness for C6: two steps named `a` fail with the duplicate-name error;
two steps with empty names pass. -/
theorem claim6_duplicate_step_names_witness :
    (∃ n, n ≠ "" ∧
      2 ≤ (([{ Name := "a", Image := "i1" }, { Name := "a", Image := "i2" } ] :
        List Step).map Step.Name).count n ∧
      validateSteps [{ Name := "a", Image := "i1" }, { Name := "a", Image := "i2" }] =
        some (ErrInvalidValue n "name")) ∧
    validateSteps [{ Image := "i1" }, { Image := "i2" }] = none :=
  ⟨(claim6_duplicate_step_names
      [{ Name := "a", Image := "i1" }, { Name := "a", Image := "i2" }]).2.1
      (by decide) (by decide),
   (claim6_duplicate_step_names [{ Image := "i1" }, { Image := "i2" }]).2.2
      (by decide) (by decide)⟩

/-- Claim C7: a step sequence in which some step has both a non-empty script
and a non-empty command always fails validation; when the steps otherwise
pass the image, mount and name checks, the failure is the
mutually-exclusive-fields error at the offending step index, and with no such
step the loop passes. -/
theorem claim7_script_command (steps : List Step) :
    ((∃ s ∈ steps, s.Script ≠ "" ∧ s.Command ≠ []) → validateSteps steps ≠ none) ∧
    ((∀ s ∈ steps, s.Image ≠ "" ∧ stepMountChecksOk s) →
      ((steps.map Step.Name).filter (fun n => n ≠ "")).Nodup →
      ((∀ s ∈ steps, ¬(s.Script ≠ "" ∧ s.Command ≠ [])) → validateSteps steps = none) ∧
      ((∃ s ∈ steps, s.Script ≠ "" ∧ s.Command ≠ []) →
        ∃ k, ∃ hk : k < steps.length, (steps.get ⟨k, hk⟩).Script ≠ "" ∧
          (steps.get ⟨k, hk⟩).Command ≠ [] ∧
          validateSteps steps = some (scriptCommandError k))) := by
  constructor
  · rintro ⟨s, hs, hb⟩ hnone
    obtain ⟨hok, -⟩ := (validateSteps_eq_none_iff steps).mp hnone
    exact (hok s hs).2.1 hb
  · intro hclean hnodup
    constructor
    · intro hnos
      refine (validateSteps_eq_none_iff steps).mpr ⟨?_, hnodup⟩
      intro s hs
      exact ⟨(hclean s hs).1, hnos s hs, (hclean s hs).2⟩
    · rintro ⟨s, hs, hb⟩
      have hnd : noDupNames [] (steps.map Step.Name) :=
        (noDupNames_iff _ _).mpr ⟨hnodup, by simp⟩
      rcases validateStepsGo_script_error steps [] 0 hclean hnd with
        hnone | ⟨k, hk, h1, h2, herr⟩
      · obtain ⟨hok, -⟩ := (validateStepsGo_eq_none_iff _ _ _).mp hnone
        exact absurd hb (hok s hs).2.1
      · rw [Nat.zero_add] at herr
        exact ⟨k, hk, h1, h2, herr⟩

/-- Witness for C7: a step with both script and command fails with the
mutually-exclusive error at its index; a step with only a script passes. -/
theorem claim7_script_command_witness :
    (∃ k, ∃ hk : k < ([{ Image := "i", Script := "x", Command := ["c"] }] :
        List Step).length,
      (([{ Image := "i", Script := "x", Command := ["c"] }] :
        List Step).get ⟨k, hk⟩).Script ≠ "" ∧
      (([{ Image := "i", Script := "x", Command := ["c"] }] :
        List Step).get ⟨k, hk⟩).Command ≠ [] ∧
      validateSteps [{ Image := "i", Script := "x", Command := ["c"] }] =
        some (scriptCommandError k)) ∧
    validateSteps [{ Image := "i", Script := "x" }] = none :=
  ⟨((claim7_script_command [{ Image := "i", Script := "x", Command := ["c"] }]).2
      (by decide) (by decide)).2
      ⟨{ Image := "i", Script := "x", Command := ["c"] }, by decide, by decide, by decide⟩,
   ((claim7_script_command [{ Image := "i", Script := "x" }]).2
      (by decide) (by decide)).1 (by decide)⟩

/-- Claim C10: the reserved-path restriction on step volume mounts is decided
by raw string-prefix tests on the uncleaned mount path - under the other
per-step checks the loop passes exactly when no mount path both starts with
the literal string under the reserved prefix and misses the carved-out
sub-prefix; moreover the raw tests classify the concrete examples as the
claim says, with the dot-dot path cleaning to a location outside the reserved
directory yet still being matched by the raw prefix test. -/
theorem claim10_reserved_mount_paths (steps : List Step) :
    ((∀ s ∈ steps, s.Image ≠ "" ∧ ¬(s.Script ≠ "" ∧ s.Command ≠ []) ∧
        ∀ vm ∈ s.VolumeMounts, strHasPrefix vm.Name "tekton-internal-" = false) →
      ((steps.map Step.Name).filter (fun n => n ≠ "")).Nodup →
      (validateSteps steps = none ↔
        ∀ s ∈ steps, ∀ vm ∈ s.VolumeMounts,
          (strHasPrefix vm.MountPath "/tekton/" &&
            !strHasPrefix vm.MountPath "/tekton/home") = false)) ∧
    (strHasPrefix "/tekton/homestead" "/tekton/" = true ∧
     strHasPrefix "/tekton/homestead" "/tekton/home" = true ∧
     strHasPrefix "/tekton/../other" "/tekton/" = true ∧
     strHasPrefix "/tekton/../other" "/tekton/home" = false ∧
     filepathClean "/tekton/../other" = "/other") := by
  constructor
  · intro hclean hnodup
    rw [validateSteps_eq_none_iff]
    constructor
    · rintro ⟨hok, -⟩ s hs vm hvm
      exact ((hok s hs).2.2 vm hvm).1
    · intro hall
      refine ⟨?_, hnodup⟩
      intro s hs
      obtain ⟨h1, h2, h3⟩ := hclean s hs
      exact ⟨h1, h2, fun vm hvm => ⟨hall s hs vm hvm, h3 vm hvm⟩⟩
  · exact ⟨by decide, by decide, by decide, by decide, by decide⟩

/-- Witness for C10: the homestead mount is accepted and the dot-dot mount is
rejected, at concrete inputs. -/
theorem claim10_reserved_mount_paths_witness :
    validateSteps
      [{ Image := "i", VolumeMounts := [{ Name := "m", MountPath := "/tekton/homestead" }] }]
      = none ∧
    validateSteps
      [{ Image := "i", VolumeMounts := [{ Name := "m", MountPath := "/tekton/../other" }] }]
      ≠ none :=
  ⟨((claim10_reserved_mount_paths
      [{ Image := "i", VolumeMounts := [{ Name := "m", MountPath := "/tekton/homestead" }] }]).1
      (by decide) (by decide)).mpr (by decide),
   fun h => absurd (((claim10_reserved_mount_paths
      [{ Image := "i", VolumeMounts := [{ Name := "m", MountPath := "/tekton/../other" }] }]).1
      (by decide) (by decide)).mp h) (by decide)⟩

/-! ## Workspace-fold lemmas and claim C4 -/

theorem wsGo_shape (ws : List WorkspaceDeclaration) : ∀ (mp ns : List String),
    (∀ w ∈ ws, w.Name ∉ ns) → (ws.map WorkspaceDeclaration.Name).Nodup →
    wsGo mp ns ws = none ∨ ∃ p, wsGo mp ns ws = some (wsPathError p) := by
  induction ws with
  | nil => intro mp ns _ _; exact Or.inl rfl
  | cons w rest ih =>
    intro mp ns hns hnd
    simp only [List.map_cons, List.nodup_cons] at hnd
    unfold wsGo
    have hname : ¬ ns.contains w.Name = true := fun hc =>
      hns w (List.mem_cons_self _ _) ((contains_iff_mem _ _).mp hc)
    rw [if_neg hname]
    by_cases hmp : mp.contains (filepathClean w.GetMountPath) = true
    · rw [if_pos hmp]
      exact Or.inr ⟨filepathClean w.GetMountPath, rfl⟩
    · rw [if_neg hmp]
      apply ih
      · intro x hx hmem
        rcases List.mem_cons.mp hmem with heq | hmem'
        · exact hnd.1 (heq ▸ List.mem_map_of_mem WorkspaceDeclaration.Name hx)
        · exact hns x (List.mem_cons_of_mem _ hx) hmem'
      · exact hnd.2

theorem wsGo_fails (ws : List WorkspaceDeclaration) : ∀ (mp ns : List String),
    (¬ (ws.map (fun w => filepathClean w.GetMountPath)).Nodup ∨
      ∃ w ∈ ws, filepathClean w.GetMountPath ∈ mp) →
    wsGo mp ns ws ≠ none := by
  induction ws with
  | nil =>
    intro mp ns h
    rcases h with h | ⟨w, hw, -⟩
    · simp at h
    · simp at hw
  | cons w rest ih =>
    intro mp ns h hnone
    unfold wsGo at hnone
    by_cases hname : ns.contains w.Name = true
    · rw [if_pos hname] at hnone
      exact Option.noConfusion hnone
    · rw [if_neg hname] at hnone
      by_cases hmp : mp.contains (filepathClean w.GetMountPath) = true
      · rw [if_pos hmp] at hnone
        exact Option.noConfusion hnone
      · rw [if_neg hmp] at hnone
        refine ih _ _ ?_ hnone
        rcases h with hdup | ⟨x, hx, hxmp⟩
        · simp only [List.map_cons, List.nodup_cons, not_and] at hdup
          by_cases hmem : filepathClean w.GetMountPath ∈
              rest.map (fun w => filepathClean w.GetMountPath)
          · obtain ⟨x, hx, hpx⟩ := List.mem_map.mp hmem
            exact Or.inr ⟨x, hx, by rw [hpx]; exact List.mem_cons_self _ _⟩
          · exact Or.inl (hdup hmem)
        · rcases List.mem_cons.mp hx with heq | hx'
          · exact absurd ((contains_iff_mem _ _).mpr (heq ▸ hxmp)) hmp
          · exact Or.inr ⟨x, hx', List.mem_cons_of_mem _ hxmp⟩

/-- Claim C4: two distinct workspace declarations whose resolved,
path-cleaned mount paths coincide always make validation fail; when the
workspace names are pairwise distinct (so the earlier-ordered name-uniqueness
check cannot fire first), the failure is the mount-path-conflict error, and
this holds for the reversed declaration order as well. -/
theorem claim4_workspace_path_conflict (workspaces : List WorkspaceDeclaration)
    (steps : List Step) (stepTemplate : Option Container) :
    (¬ (workspaces.map (fun w => filepathClean w.GetMountPath)).Nodup →
      validateDeclaredWorkspaces workspaces steps stepTemplate ≠ none) ∧
    ((workspaces.map WorkspaceDeclaration.Name).Nodup →
      ¬ (workspaces.map (fun w => filepathClean w.GetMountPath)).Nodup →
      (∃ p, validateDeclaredWorkspaces workspaces steps stepTemplate =
        some (wsPathError p)) ∧
      (∃ p, validateDeclaredWorkspaces workspaces.reverse steps stepTemplate =
        some (wsPathError p))) := by
  have main : ∀ ws : List WorkspaceDeclaration, (ws.map WorkspaceDeclaration.Name).Nodup →
      ¬ (ws.map (fun w => filepathClean w.GetMountPath)).Nodup →
      ∃ p, validateDeclaredWorkspaces ws steps stepTemplate = some (wsPathError p) := by
    intro ws hn hd
    rcases wsGo_shape ws (workspaceMountPaths steps stepTemplate) [] (by simp) hn with
      hnone | hsome
    · exact absurd hnone (wsGo_fails ws _ [] (Or.inl hd))
    · exact hsome
  refine ⟨?_, ?_⟩
  · intro hdup
    exact wsGo_fails workspaces (workspaceMountPaths steps stepTemplate) [] (Or.inl hdup)
  · intro hnames hdup
    refine ⟨main workspaces hnames hdup, main workspaces.reverse ?_ ?_⟩
    · rw [List.map_reverse, List.nodup_reverse]
      exact hnames
    · rw [List.map_reverse, List.nodup_reverse]
      exact hdup

/-- Witness for C4: two differently named workspaces whose mount paths clean
to the same location fail with the mount-path-conflict error in both
declaration orders. -/
theorem claim4_workspace_path_conflict_witness :
    (∃ p, validateDeclaredWorkspaces
      [{ Name := "a", MountPath := "/x/." }, { Name := "b", MountPath := "/x" }] [] none =
      some (wsPathError p)) ∧
    (∃ p, validateDeclaredWorkspaces
      ([{ Name := "a", MountPath := "/x/." },
        { Name := "b", MountPath := "/x" }] : List WorkspaceDeclaration).reverse [] none =
      some (wsPathError p)) :=
  (claim4_workspace_path_conflict
    [{ Name := "a", MountPath := "/x/." }, { Name := "b", MountPath := "/x" }] [] none).2
    (by decide) (by decide)

/-! ## Claim C5 -/

/-- Counterexample to C5 as stated: the entirely empty specification has an
empty step list, yet validation fails with the missing-required-field error
at the root (current) field, whose path is the empty string, not "steps". -/
theorem claim5_counterexample :
    TaskSpec.Validate emptyTaskSpec = some (ErrMissingField "") ∧
    ErrMissingField "" ≠ ErrMissingField "steps" := by
  constructor
  · decide
  · decide

/-- Claim C5 (amended): every specification whose step list is empty fails
with a missing-required-field error; the error's path is "steps" unless the
specification is entirely empty, in which case the short-circuiting emptiness
check reports the root (current) field instead. -/
theorem claim5_empty_steps (ts : TaskSpec) (h : ts.Steps = []) :
    TaskSpec.Validate ts =
      some (ErrMissingField (if ts = emptyTaskSpec then "" else "steps")) := by
  unfold TaskSpec.Validate
  by_cases he : ts = emptyTaskSpec
  · rw [if_pos he, if_pos he]
  · rw [if_neg he, if_pos h, if_neg he]

/-- Witness for C5: a non-empty specification with an empty step list fails
with the missing-required-field error on "steps". -/
theorem claim5_empty_steps_witness :
    TaskSpec.Validate { Volumes := [{ Name := "v" }] } = some (ErrMissingField "steps") := by
  have h := claim5_empty_steps { Volumes := [{ Name := "v" }] } rfl
  rw [if_neg (by decide)] at h
  exact h

/-! ## Claim C9 -/

theorem paramTypeCheck_eq_none_iff (root : String) (p : ParamSpec) :
    paramTypeCheck root p = none ↔
      p.type ∈ AllParamTypes ∧ ∀ d, p.Default = some d → d.type = p.type := by
  unfold paramTypeCheck
  by_cases h1 : AllParamTypes.contains p.type = true
  · rw [if_neg (by simpa using h1)]
    rcases hd : p.Default with _ | d
    · refine iff_of_true rfl ⟨(contains_iff_mem _ _).mp h1, ?_⟩
      intro d hdd
      exact Option.noConfusion hdd
    · dsimp only
      by_cases hdt : d.type = p.type
      · rw [if_neg (by simpa using hdt)]
        refine iff_of_true rfl ⟨(contains_iff_mem _ _).mp h1, ?_⟩
        intro d' hdd
        rw [Option.some.inj hdd] at hdt
        exact hdt
      · rw [if_pos hdt]
        refine iff_of_false (fun hco => Option.noConfusion hco) ?_
        rintro ⟨-, hall⟩
        exact hdt (hall d rfl)
  · rw [if_pos (by simpa using h1)]
    refine iff_of_false (fun hco => Option.noConfusion hco) ?_
    rintro ⟨hmem, -⟩
    exact h1 ((contains_iff_mem _ _).mpr hmem)

theorem paramTypeCheck_eq_some (root : String) (p : ParamSpec) (e : FieldError)
    (h : paramTypeCheck root p = some e) :
    (p.type ∉ AllParamTypes ∧ e = ErrInvalidValue p.type (root ++ p.Name ++ ".type")) ∨
    (p.type ∈ AllParamTypes ∧ ∃ d, p.Default = some d ∧ d.type ≠ p.type ∧
      e = paramMismatchError root p d) := by
  unfold paramTypeCheck at h
  by_cases h1 : AllParamTypes.contains p.type = true
  · rw [if_neg (by simpa using h1)] at h
    rcases hd : p.Default with _ | d
    · rw [hd] at h
      exact Option.noConfusion h
    · rw [hd] at h
      dsimp only at h
      by_cases hdt : d.type = p.type
      · rw [if_neg (by simpa using hdt)] at h
        exact Option.noConfusion h
      · rw [if_pos hdt] at h
        exact Or.inr ⟨(contains_iff_mem _ _).mp h1, d, rfl, hdt, (Option.some.inj h).symm⟩
  · rw [if_pos (by simpa using h1)] at h
    refine Or.inl ⟨fun hmem => h1 ((contains_iff_mem _ _).mpr hmem), (Option.some.inj h).symm⟩

/-- Claim C9: a legacy input parameter declaration list passes the type check
exactly when every declared type is recognized and every present default's
tagged type equals the declared type; a failure is either the invalid-enum
error for a declaration with an unrecognized type, or the type-mismatch error
for a declaration with a recognized type and a differently tagged default. -/
theorem claim9_param_types (inputs : Inputs) :
    (validateInputParameterTypes inputs = none ↔
      ∀ p ∈ inputs.Params, p.type ∈ AllParamTypes ∧
        ∀ d, p.Default = some d → d.type = p.type) ∧
    (∀ e, validateInputParameterTypes inputs = some e → ∃ p ∈ inputs.Params,
      (p.type ∉ AllParamTypes ∧
        e = ErrInvalidValue p.type ("taskspec.inputs.params." ++ p.Name ++ ".type")) ∨
      (p.type ∈ AllParamTypes ∧ ∃ d, p.Default = some d ∧ d.type ≠ p.type ∧
        e = paramMismatchError "taskspec.inputs.params." p d)) := by
  constructor
  · unfold validateInputParameterTypes
    rw [firstErr_map_eq_none_iff]
    constructor
    · intro hall p hp
      exact (paramTypeCheck_eq_none_iff _ _).mp (hall p hp)
    · intro hall p hp
      exact (paramTypeCheck_eq_none_iff _ _).mpr (hall p hp)
  · intro e he
    unfold validateInputParameterTypes at he
    obtain ⟨p, hp, hc⟩ := firstErr_map_eq_some _ _ _ he
    exact ⟨p, hp, paramTypeCheck_eq_some _ _ _ hc⟩

/-- Witness for C9: a declaration with an unrecognized type yields the
invalid-enum error, and one with a mismatched default yields the
type-mismatch error, at concrete inputs. -/
theorem claim9_param_types_witness :
    (∃ p ∈ ({ Params := [{ Name := "a", type := "bogus" }] } : Inputs).Params,
      (p.type ∉ AllParamTypes ∧
        ErrInvalidValue "bogus" "taskspec.inputs.params.a.type" =
          ErrInvalidValue p.type ("taskspec.inputs.params." ++ p.Name ++ ".type")) ∨
      (p.type ∈ AllParamTypes ∧ ∃ d, p.Default = some d ∧ d.type ≠ p.type ∧
        ErrInvalidValue "bogus" "taskspec.inputs.params.a.type" =
          paramMismatchError "taskspec.inputs.params." p d)) ∧
    validateInputParameterTypes
      { Params := [{ Name := "b", type := "string", Default := some { type := "array" } }] }
      ≠ none :=
  ⟨(claim9_param_types { Params := [{ Name := "a", type := "bogus" }] }).2
      (ErrInvalidValue "bogus" "taskspec.inputs.params.a.type") (by decide),
   fun h => by
    have hall := (claim9_param_types
      { Params := [{ Name := "b", type := "string", Default := some { type := "array" } }] }
      ).1.mp h
    exact absurd hall (by decide)⟩

/-! ## Façade error-shape lemmas (toward claim C8) -/

theorem ne_multiOneOf_of_paths_single (e : FieldError) (p : String) (h : e.Paths = [p]) :
    e ≠ ErrMultipleOneOf ["inputs.params", "params"] := by
  intro he
  rw [he] at h
  simp [ErrMultipleOneOf] at h

theorem viaField_paths_single (e : FieldError) (f p : String) (h : e.Paths = [p]) :
    ∃ q, (e.ViaField f).Paths = [q] := by
  unfold FieldError.ViaField
  rw [h]
  by_cases hp : p = ""
  · exact ⟨f, by simp [hp]⟩
  · exact ⟨f ++ "." ++ p, by simp [hp]⟩

theorem strHead_append (a b : String) (c : Char) (h : a.data.head? = some c) :
    (a ++ b).data.head? = some c := by
  rw [String.data_append]
  cases ha : a.data with
  | nil =>
    rw [ha] at h
    exact Option.noConfusion h
  | cons x xs =>
    rw [ha] at h
    simp only [List.head?_cons, Option.some.injEq] at h
    simp [ha, h]

theorem paramMismatchError_ne_multi (root : String) (p : ParamSpec) (d : ArrayOrString) :
    paramMismatchError root p d ≠ ErrMultipleOneOf ["inputs.params", "params"] := by
  intro h
  have hm := congrArg FieldError.Message h
  have hh : (paramMismatchError root p d).Message.data.head? = some '"' :=
    strHead_append _ _ _ (strHead_append _ _ _ (strHead_append _ _ _ rfl))
  rw [hm] at hh
  exact absurd hh (by decide)

theorem paramTypeCheck_ne_multi (root : String) (p : ParamSpec) (e : FieldError)
    (h : paramTypeCheck root p = some e) :
    e ≠ ErrMultipleOneOf ["inputs.params", "params"] := by
  rcases paramTypeCheck_eq_some root p e h with ⟨-, he⟩ | ⟨-, d, -, -, he⟩
  · exact he ▸ ne_multiOneOf_of_paths_single _ _ rfl
  · exact he ▸ paramMismatchError_ne_multi root p d

theorem volumesGo_some_paths (vols : List Volume) : ∀ (seen : List String) (e : FieldError),
    volumesGo seen vols = some e → e.Paths = ["name"] := by
  induction vols with
  | nil => intro seen e h; exact Option.noConfusion h
  | cons v rest ih =>
    intro seen e h
    unfold volumesGo at h
    by_cases hc : seen.contains v.Name = true
    · rw [if_pos hc] at h
      rw [← Option.some.inj h]
    · rw [if_neg hc] at h
      exact ih _ e h

theorem wsGo_some_paths (ws : List WorkspaceDeclaration) : ∀ (mp ns : List String)
    (e : FieldError), wsGo mp ns ws = some e → ∃ p, e.Paths = [p] := by
  induction ws with
  | nil => intro mp ns e h; exact Option.noConfusion h
  | cons w rest ih =>
    intro mp ns e h
    unfold wsGo at h
    by_cases hc : ns.contains w.Name = true
    · rw [if_pos hc] at h
      exact ⟨"workspaces.name", by rw [← Option.some.inj h]; rfl⟩
    · rw [if_neg hc] at h
      by_cases hm : mp.contains (filepathClean w.GetMountPath) = true
      · rw [if_pos hm] at h
        exact ⟨"workspaces.mountpath", by rw [← Option.some.inj h]; rfl⟩
      · rw [if_neg hm] at h
        exact ih _ _ e h

theorem dupGo_some_paths (rs : List TaskResource) : ∀ (path : String) (seen : List String)
    (e : FieldError), dupGo path seen rs = some e → e.Paths = [path] := by
  induction rs with
  | nil => intro path seen e h; exact Option.noConfusion h
  | cons r rest ih =>
    intro path seen e h
    unfold dupGo at h
    by_cases hc : seen.contains (strToLower r.Name) = true
    · rw [if_pos hc] at h
      rw [← Option.some.inj h]
      rfl
    · rw [if_neg hc] at h
      exact ih _ _ e h

theorem resNamesGo_some_paths (rs : List TaskResource) : ∀ (path : String)
    (seen : List String) (e : FieldError),
    resNamesGo path seen rs = some e → e.Paths = [path ++ ".name"] := by
  induction rs with
  | nil => intro path seen e h; exact Option.noConfusion h
  | cons r rest ih =>
    intro path seen e h
    unfold resNamesGo at h
    by_cases hc : seen.contains r.Name = true
    · rw [if_pos hc] at h
      rw [← Option.some.inj h]
    · rw [if_neg hc] at h
      exact ih _ _ e h

theorem taskResourcesListCheck_some_paths (rs : List TaskResource) (path : String)
    (e : FieldError) (h : taskResourcesListCheck rs path = some e) : ∃ p, e.Paths = [p] := by
  unfold taskResourcesListCheck at h
  rcases (seqE_eq_some_iff _ _ _).mp h with h1 | ⟨-, h2⟩
  · obtain ⟨r, -, hr⟩ := firstErr_map_eq_some _ _ _ h1
    by_cases hc : AllResourceTypes.contains r.type = true
    · rw [if_pos hc] at hr
      exact Option.noConfusion hr
    · rw [if_neg hc] at hr
      exact ⟨path ++ ".type", by rw [← Option.some.inj hr]⟩
  · exact ⟨path ++ ".name", resNamesGo_some_paths _ _ _ _ h2⟩

theorem validateResourceType_some_paths (r : TaskResource) (path : String) (e : FieldError)
    (h : validateResourceType r path = some e) : e.Paths = [path] := by
  unfold validateResourceType at h
  by_cases hc : AllResourceTypes.contains r.type = true
  · rw [if_pos hc] at h
    exact Option.noConfusion h
  · rw [if_neg hc] at h
    rw [← Option.some.inj h]
    rfl

theorem dnsLabelCheck_some_paths (ts : TaskSpec) (e : FieldError)
    (h : dnsLabelCheck ts = some e) : e.Paths = ["taskspec.steps.name"] := by
  unfold dnsLabelCheck at h
  obtain ⟨s, -, hs⟩ := firstErr_map_eq_some _ _ _ h
  by_cases hc : s.Name ≠ "" ∧ ¬ isDNS1123Label s.Name
  · rw [if_pos hc] at hs
    rw [← Option.some.inj hs]
    rfl
  · rw [if_neg hc] at hs
    exact Option.noConfusion hs

theorem legacyInputsBlock_ne_multi (ts : TaskSpec) (e : FieldError)
    (h : legacyInputsBlock ts = some e) :
    e ≠ ErrMultipleOneOf ["inputs.params", "params"] := by
  unfold legacyInputsBlock at h
  rcases hi : ts.Inputs with _ | inputs
  · rw [hi] at h
    exact Option.noConfusion h
  · rw [hi] at h
    rcases (seqE_eq_some_iff _ _ _).mp h with h1 | ⟨-, h2⟩
    · obtain ⟨r, -, hr⟩ := firstErr_map_eq_some _ _ _ h1
      exact ne_multiOneOf_of_paths_single _ _ (validateResourceType_some_paths _ _ _ hr)
    · rcases (seqE_eq_some_iff _ _ _).mp h2 with h3 | ⟨-, h4⟩
      · exact ne_multiOneOf_of_paths_single _ _ (dupGo_some_paths _ _ _ _ h3)
      · unfold validateInputParameterTypes at h4
        obtain ⟨p, -, hp⟩ := firstErr_map_eq_some _ _ _ h4
        exact paramTypeCheck_ne_multi _ _ _ hp

theorem legacyOutputsBlock_ne_multi (ts : TaskSpec) (e : FieldError)
    (h : legacyOutputsBlock ts = some e) :
    e ≠ ErrMultipleOneOf ["inputs.params", "params"] := by
  unfold legacyOutputsBlock at h
  rcases ho : ts.Outputs with _ | outputs
  · rw [ho] at h
    exact Option.noConfusion h
  · rw [ho] at h
    rcases (seqE_eq_some_iff _ _ _).mp h with h1 | ⟨-, h2⟩
    · obtain ⟨r, -, hr⟩ := firstErr_map_eq_some _ _ _ h1
      exact ne_multiOneOf_of_paths_single _ _ (validateResourceType_some_paths _ _ _ hr)
    · exact ne_multiOneOf_of_paths_single _ _ (dupGo_some_paths _ _ _ _ h2)

theorem taskResourcesValidate_ne_multi (tr : TaskResources) (e : FieldError)
    (h : tr.Validate = some e) : e ≠ ErrMultipleOneOf ["inputs.params", "params"] := by
  unfold TaskResources.Validate at h
  rcases (seqE_eq_some_iff _ _ _).mp h with h1 | ⟨-, h2⟩
  · obtain ⟨p, hp⟩ := taskResourcesListCheck_some_paths _ _ _ h1
    exact ne_multiOneOf_of_paths_single _ _ hp
  · obtain ⟨p, hp⟩ := taskResourcesListCheck_some_paths _ _ _ h2
    exact ne_multiOneOf_of_paths_single _ _ hp

theorem v1alpha2ParamTypes_ne_multi (params : List ParamSpec) (e : FieldError)
    (h : V1alpha2.ValidateParameterTypes params = some e) :
    e ≠ ErrMultipleOneOf ["inputs.params", "params"] := by
  unfold V1alpha2.ValidateParameterTypes at h
  obtain ⟨p, -, hp⟩ := firstErr_map_eq_some _ _ _ h
  exact paramTypeCheck_ne_multi _ _ _ hp

theorem v1alpha2ParamVars_ne_multi (steps : List Step) (params : List ParamSpec)
    (e : FieldError) (h : V1alpha2.ValidateParameterVariables steps params = some e) :
    e ≠ ErrMultipleOneOf ["inputs.params", "params"] := by
  unfold V1alpha2.ValidateParameterVariables at h
  rcases (seqE_eq_some_iff _ _ _).mp h with h1 | ⟨-, h2⟩
  · obtain ⟨p, hp⟩ := v1alpha2_validateVariables_some_paths _ _ _ _ h1
    exact ne_multiOneOf_of_paths_single _ _ hp
  · obtain ⟨p, hp⟩ := v1alpha2_validateArrayUsage_some_paths _ _ _ _ h2
    exact ne_multiOneOf_of_paths_single _ _ hp

theorem v1alpha2ResourceVars_ne_multi (steps : List Step) (resources : Option TaskResources)
    (e : FieldError) (h : V1alpha2.ValidateResourcesVariables steps resources = some e) :
    e ≠ ErrMultipleOneOf ["inputs.params", "params"] := by
  unfold V1alpha2.ValidateResourcesVariables at h
  rcases resources with _ | r
  · exact Option.noConfusion h
  · obtain ⟨p, hp⟩ := v1alpha2_validateVariables_some_paths _ _ _ _ h
    exact ne_multiOneOf_of_paths_single _ _ hp

theorem inputParamVars_ne_multi (steps : List Step) (inputs : Option Inputs)
    (params : List ParamSpec) (e : FieldError)
    (h : validateInputParameterVariables steps inputs params = some e) :
    e ≠ ErrMultipleOneOf ["inputs.params", "params"] := by
  unfold validateInputParameterVariables at h
  rcases (seqE_eq_some_iff _ _ _).mp h with h1 | ⟨-, h2⟩
  · obtain ⟨p, hp⟩ := validateVariables_some_paths _ _ _ _ h1
    exact ne_multiOneOf_of_paths_single _ _ hp
  · obtain ⟨p, hp⟩ := validateArrayUsage_some_paths _ _ _ _ h2
    exact ne_multiOneOf_of_paths_single _ _ hp

theorem resourceVars_ne_multi (steps : List Step) (inputs : Option Inputs)
    (outputs : Option Outputs) (resources : Option TaskResources) (e : FieldError)
    (h : validateResourceVariables steps inputs outputs resources = some e) :
    e ≠ ErrMultipleOneOf ["inputs.params", "params"] := by
  unfold validateResourceVariables at h
  obtain ⟨p, hp⟩ := validateVariables_some_paths _ _ _ _ h
  exact ne_multiOneOf_of_paths_single _ _ hp

theorem exclusivityChecks_eq_multi (ts : TaskSpec)
    (h : exclusivityChecks ts = some (ErrMultipleOneOf ["inputs.params", "params"])) :
    ∃ i, ts.Inputs = some i ∧ i.Params ≠ [] ∧ ts.Params ≠ [] := by
  unfold exclusivityChecks at h
  have houts : ∀ e, (match ts.Outputs with
      | some outputs =>
        match ts.Resources with
        | some r =>
          if r.Outputs ≠ [] ∧ outputs.Resources ≠ [] then
            some (ErrMultipleOneOf ["outputs.resources", "resources.outputs"])
          else none
        | none => none
      | none => none) = some e → e ≠ ErrMultipleOneOf ["inputs.params", "params"] := by
    intro e he
    rcases ho : ts.Outputs with _ | outputs
    · rw [ho] at he
      exact Option.noConfusion he
    · rw [ho] at he
      rcases hr : ts.Resources with _ | r
      · rw [hr] at he
        exact Option.noConfusion he
      · rw [hr] at he
        dsimp only at he
        by_cases hb : r.Outputs ≠ [] ∧ outputs.Resources ≠ []
        · rw [if_pos hb] at he
          rw [← Option.some.inj he]
          decide
        · rw [if_neg hb] at he
          exact Option.noConfusion he
  rcases (seqE_eq_some_iff _ _ _).mp h with h1 | ⟨-, h2⟩
  · rcases hi : ts.Inputs with _ | inputs
    · rw [hi] at h1
      exact Option.noConfusion h1
    · rw [hi] at h1
      rcases (seqE_eq_some_iff _ _ _).mp h1 with h3 | ⟨-, h4⟩
      · by_cases hb : inputs.Params ≠ [] ∧ ts.Params ≠ []
        · exact ⟨inputs, rfl, hb.1, hb.2⟩
        · rw [if_neg hb] at h3
          exact Option.noConfusion h3
      · rcases hr : ts.Resources with _ | r
        · rw [hr] at h4
          exact Option.noConfusion h4
        · rw [hr] at h4
          dsimp only at h4
          by_cases hb : r.Inputs ≠ [] ∧ inputs.Resources ≠ []
          · rw [if_pos hb] at h4
            exact absurd (Option.some.inj h4) (by decide)
          · rw [if_neg hb] at h4
            exact Option.noConfusion h4
  · exact absurd rfl (houts _ h2)

/-! ## Claim C8 -/

/-- Claim C8: when the legacy inputs.params list and the new-style params
list are both non-empty and the earlier checks pass, validation fails with
the mutually-exclusive-fields error naming both field paths; when at most one
of the two lists is non-empty, validation never returns that error. -/
theorem claim8_params_exclusive (ts : TaskSpec) :
    (∀ i, ts.Inputs = some i → i.Params ≠ [] → ts.Params ≠ [] →
      ts ≠ emptyTaskSpec → ts.Steps ≠ [] →
      ValidateVolumes ts.Volumes = none →
      validateDeclaredWorkspaces ts.Workspaces ts.Steps ts.StepTemplate = none →
      validateSteps (MergeStepsWithStepTemplate ts.StepTemplate ts.Steps) = none →
      TaskSpec.Validate ts = some (ErrMultipleOneOf ["inputs.params", "params"])) ∧
    ((∀ i, ts.Inputs = some i → i.Params = [] ∨ ts.Params = []) →
      TaskSpec.Validate ts ≠ some (ErrMultipleOneOf ["inputs.params", "params"])) := by
  constructor
  · intro i hi hip hp hne hsteps hvol hws hst
    have hexcl : exclusivityChecks ts = some (ErrMultipleOneOf ["inputs.params", "params"]) := by
      unfold exclusivityChecks
      rw [hi]
      dsimp only
      rw [if_pos ⟨hip, hp⟩]
      rfl
    unfold TaskSpec.Validate
    rw [if_neg hne, if_neg hsteps, hvol, hws, hst, hexcl]
    rfl
  · intro hone h
    unfold TaskSpec.Validate at h
    by_cases hne : ts = emptyTaskSpec
    · rw [if_pos hne] at h
      exact absurd (Option.some.inj h) (by decide)
    · rw [if_neg hne] at h
      by_cases hst : ts.Steps = []
      · rw [if_pos hst] at h
        exact absurd (Option.some.inj h) (by decide)
      · rw [if_neg hst] at h
        rcases (seqE_eq_some_iff _ _ _).mp h with h1 | ⟨-, h⟩
        · unfold optViaField at h1
          rcases hv : ValidateVolumes ts.Volumes with _ | ev
          · rw [hv] at h1
            exact Option.noConfusion h1
          · rw [hv] at h1
            have hsing := volumesGo_some_paths ts.Volumes [] ev hv
            obtain ⟨q, hq⟩ := viaField_paths_single ev "volumes" "name" hsing
            exact ne_multiOneOf_of_paths_single _ _ hq (Option.some.inj h1)
        rcases (seqE_eq_some_iff _ _ _).mp h with h1 | ⟨-, h⟩
        · obtain ⟨p, hp⟩ := wsGo_some_paths ts.Workspaces _ [] _ h1
          exact ne_multiOneOf_of_paths_single _ _ hp rfl
        rcases (seqE_eq_some_iff _ _ _).mp h with h1 | ⟨-, h⟩
        · unfold optViaField at h1
          rcases hvs : validateSteps (MergeStepsWithStepTemplate ts.StepTemplate ts.Steps)
              with _ | ev
          · rw [hvs] at h1
            exact Option.noConfusion h1
          · rw [hvs] at h1
            obtain ⟨q, hq⟩ := validateStepsGo_some_paths _ [] 0 ev hvs
            obtain ⟨q', hq'⟩ := viaField_paths_single ev "steps" q hq
            exact ne_multiOneOf_of_paths_single _ _ hq' (Option.some.inj h1)
        rcases (seqE_eq_some_iff _ _ _).mp h with h1 | ⟨-, h⟩
        · obtain ⟨i, hi, hip, hp⟩ := exclusivityChecks_eq_multi ts h1
          rcases hone i hi with he | he
          · exact hip he
          · exact hp he
        rcases (seqE_eq_some_iff _ _ _).mp h with h1 | ⟨-, h⟩
        · rcases hr : ts.Resources with _ | r
          · rw [hr] at h1
            exact Option.noConfusion h1
          · rw [hr] at h1
            exact taskResourcesValidate_ne_multi r _ h1 rfl
        rcases (seqE_eq_some_iff _ _ _).mp h with h1 | ⟨-, h⟩
        · exact v1alpha2ParamTypes_ne_multi ts.Params _ h1 rfl
        rcases (seqE_eq_some_iff _ _ _).mp h with h1 | ⟨-, h⟩
        · exact legacyInputsBlock_ne_multi ts _ h1 rfl
        rcases (seqE_eq_some_iff _ _ _).mp h with h1 | ⟨-, h⟩
        · exact legacyOutputsBlock_ne_multi ts _ h1 rfl
        rcases (seqE_eq_some_iff _ _ _).mp h with h1 | ⟨-, h⟩
        · exact ne_multiOneOf_of_paths_single _ _ (dnsLabelCheck_some_paths ts _ h1) rfl
        rcases (seqE_eq_some_iff _ _ _).mp h with h1 | ⟨-, h⟩
        · exact v1alpha2ParamVars_ne_multi ts.Steps ts.Params _ h1 rfl
        rcases (seqE_eq_some_iff _ _ _).mp h with h1 | ⟨-, h⟩
        · exact inputParamVars_ne_multi ts.Steps ts.Inputs ts.Params _ h1 rfl
        rcases (seqE_eq_some_iff _ _ _).mp h with h1 | ⟨-, h⟩
        · exact v1alpha2ResourceVars_ne_multi ts.Steps ts.Resources _ h1 rfl
        exact resourceVars_ne_multi ts.Steps ts.Inputs ts.Outputs ts.Resources _ h rfl

/-- Witness for C8: a specification with both parameter lists populated fails
with the mutually-exclusive-fields error, and one with only the legacy list
populated never produces it. -/
theorem claim8_params_exclusive_witness :
    TaskSpec.Validate
      { Steps := [{ Image := "busybox" }], Params := [{ Name := "new" }],
        Inputs := some { Params := [{ Name := "legacy" }] } } =
      some (ErrMultipleOneOf ["inputs.params", "params"]) ∧
    TaskSpec.Validate
      { Steps := [{ Image := "busybox" }],
        Inputs := some { Params := [{ Name := "legacy" }] } } ≠
      some (ErrMultipleOneOf ["inputs.params", "params"]) :=
  ⟨(claim8_params_exclusive
      { Steps := [{ Image := "busybox" }], Params := [{ Name := "new" }],
        Inputs := some { Params := [{ Name := "legacy" }] } }).1
      { Params := [{ Name := "legacy" }] } (by decide) (by decide) (by decide) (by decide)
      (by decide) (by decide) (by decide) (by decide),
   (claim8_params_exclusive
      { Steps := [{ Image := "busybox" }],
        Inputs := some { Params := [{ Name := "legacy" }] } }).2
      (fun i hi => by
        rw [Option.some.inj hi]
        exact Or.inr rfl)⟩
